import Mathlib

/-!
Verification of the hexcells_solver multiverse/layout algebra and solver.

This file is a shallow embedding of the Rust sources:
  * `misc.rs`    — `n_choose_k` with checked 64-bit arithmetic, hex coordinates;
  * `multiverse.rs` — `Layout` and `Multiverse` with `split`, `align`, `merge`,
    `learn`, `invariants`, `solution_count`, `solution_count_upper_bound`;
  * `constraint.rs` — the distribution primitives and constraint builders;
  * `defn.rs`, `solver.rs`, `env.rs` — the puzzle model and the solver loop.

Modelling conventions:
  * Machine integers (`u64`, `usize`, `u16`) are `Nat` with explicit overflow
    checks against `2^64 - 1` exactly where the Rust code uses checked
    arithmetic; `i16`/`isize` coordinates are `Int` (the 33×33 grid keeps all
    coordinates far away from the `i16` bounds).
  * `BTreeSet t` is `Finset t`; a loop that removes every element of a set
    from another set is written as set difference.
  * `BTreeMap k v` is an association list `List (k × v)` (`BMap` below) with
    replace-on-insert semantics.  The `BTreeMap` iterates in key order while
    the list iterates in insertion order; none of the theorems below depend
    on that order (sums, products, set-membership and early-`return`
    prefixes are iteration-order independent), and where the program itself
    reads a map back out (`Multiverse.invariants`) the sorted read-out is
    modelled explicitly with `fsort` below.
  * A Rust `panic!` / failed `assert!` / `.expect(..)` / out-of-bounds index
    is `Option.none`; every function that can panic returns an `Option`.
-/

/-- The largest value of a Rust `u64`; checked arithmetic fails above it. -/
def U64MAX : ℕ := 2 ^ 64 - 1

/-- Rust `u64::checked_mul`: `none` models 64-bit overflow. -/
def checkedMul (a b : ℕ) : Option ℕ :=
  if a * b ≤ U64MAX then some (a * b) else none

/-- Rust `u64::checked_add`: `none` models 64-bit overflow. -/
def checkedAdd (a b : ℕ) : Option ℕ :=
  if a + b ≤ U64MAX then some (a + b) else none

/-- The loop of `misc::n_choose_k`: starting from accumulator `result` at
loop index `i`, run `steps` more iterations of
`result = result.checked_mul(n - i)? / (i + 1)`. -/
def nckGo (n : ℕ) : ℕ → ℕ → ℕ → Option ℕ
  | result, _, 0 => some result
  | result, i, steps + 1 =>
    match checkedMul result (n - i) with
    | none => none
    | some r => nckGo n (r / (i + 1)) (i + 1) steps

/-- `misc::n_choose_k`.  The source panics when `k > n` (modelled as `none`;
every caller guarantees `k ≤ n`), replaces `k` by `n - k` when that is
smaller, and multiplies/divides incrementally with checked arithmetic,
returning `None` on intermediate 64-bit overflow. -/
def n_choose_k (n k : ℕ) : Option ℕ :=
  if n < k then none
  else nckGo n 1 0 (if n - k < k then n - k else k)

/-- Cell colour (`defn::Color`). -/
inductive Color where
  | Black
  | Blue
  deriving DecidableEq, Repr

/-- Association-list model of `BTreeMap` (and, for key listings, of the key
set of one).  Iteration order is insertion order rather than key order; see
the module comment. -/
def BMap.lookup {κ ν : Type} [DecidableEq κ] (m : List (κ × ν)) (k : κ) : Option ν :=
  (m.find? (fun p => p.1 = k)).map Prod.snd

/-- `BTreeMap::insert`: replace the value at the key if present, otherwise
append the binding. -/
def BMap.insert {κ ν : Type} [DecidableEq κ] : List (κ × ν) → κ → ν → List (κ × ν)
  | [], k, v => [(k, v)]
  | p :: tl, k, v => if p.1 = k then (k, v) :: tl else p :: BMap.insert tl k v

/-- `BTreeMap::remove`, dropping the binding at the key. -/
def BMap.eraseKey {κ ν : Type} [DecidableEq κ] (m : List (κ × ν)) (k : κ) : List (κ × ν) :=
  m.eraseP (fun p => decide (p.1 = k))

/-- The key list of a map (`BTreeMap::keys`). -/
def BMap.keys {κ ν : Type} (m : List (κ × ν)) : List κ :=
  m.map Prod.fst

/-- The `for`-loop shape `for x in l { acc = f acc x? }` over fallible bodies:
effectful map over `Option` collecting the results (Rust `Vec::push` in a
loop whose body may panic). -/
def omapM {β γ : Type} (f : β → Option γ) : List β → Option (List γ)
  | [] => some []
  | b :: tl => do
    let c ← f b
    let cs ← omapM f tl
    some (c :: cs)

/-- Repeated minimum extraction, driven by fuel (the set's cardinality):
the sorted ascending read-out of a `BTreeSet`.  Written with fuel so that it
reduces definitionally (Mathlib's `Finset.sort` is well-founded and does
not). -/
def fsortGo {α : Type} [LinearOrder α] : ℕ → Finset α → List α
  | 0, _ => []
  | n + 1, s =>
    match s.min with
    | none => []
    | some a => a :: fsortGo n (s.erase a)

/-- The sorted ascending list of a finite set: the iteration order of a
`BTreeSet`. -/
def fsort {α : Type} [LinearOrder α] (s : Finset α) : List α :=
  fsortGo s.card s

/-- A `multiverse::Layout`: a map from coordinate groups to the number of
blue cells inside each group. -/
structure Layout (α : Type) where
  binomial_coefs : List (Finset α × ℕ)
  deriving DecidableEq

/-- The group-validity checks performed by `Layout::new`: every group is
non-empty, no blue count exceeds its group's size, and (via the `seen` set)
the groups are pairwise disjoint. -/
def Layout.WFb {α : Type} [DecidableEq α] (bc : List (Finset α × ℕ)) : Prop :=
  (∀ p ∈ bc, p.1.Nonempty ∧ p.2 ≤ p.1.card) ∧
    (bc.map Prod.fst).Pairwise (fun a b => Disjoint a b)

instance {α : Type} [DecidableEq α] (bc : List (Finset α × ℕ)) :
    Decidable (Layout.WFb bc) := by
  unfold Layout.WFb; infer_instance

/-- `Layout::new`, with its assertions: `none` models a panic. -/
def Layout.new {α : Type} [DecidableEq α] (bc : List (Finset α × ℕ)) : Option (Layout α) :=
  if Layout.WFb bc then some ⟨bc⟩ else none

/-- `Layout::solution_count`'s fold: multiply the binomial coefficient of
each group into the accumulator with checked 64-bit arithmetic. -/
def Layout.scGo {α : Type} : ℕ → List (Finset α × ℕ) → Option ℕ
  | i, [] => some i
  | i, p :: tl =>
    match (n_choose_k p.1.card p.2).bind (checkedMul i) with
    | none => none
    | some r => Layout.scGo r tl

/-- `Layout::solution_count`: product of per-group binomial coefficients,
`None` on 64-bit overflow. -/
def Layout.solution_count {α : Type} (lay : Layout α) : Option ℕ :=
  Layout.scGo 1 lay.binomial_coefs

/-- The union of all groups of a layout (the fold in `Multiverse::new`). -/
def Layout.layUnion {α : Type} [DecidableEq α] (lay : Layout α) : Finset α :=
  lay.binomial_coefs.foldl (fun acc p => acc ∪ p.1) ∅

/-- Solution semantics: a colouring `f` (`true` = blue) is admitted by a
layout when every group contains exactly its prescribed number of blues.
This is the meaning the `multiverse.rs` documentation gives to a layout. -/
def Layout.admits {α : Type} [DecidableEq α] (lay : Layout α) (f : α → Bool) : Prop :=
  ∀ p ∈ lay.binomial_coefs, (p.1.filter (fun c => f c)).card = p.2

instance {α : Type} [DecidableEq α] (lay : Layout α) (f : α → Bool) :
    Decidable (lay.admits f) := by
  unfold Layout.admits; infer_instance

/-- The exact (unbounded-integer) solution count of a layout: the product of
the binomial coefficients of its groups, with no 64-bit cap. -/
def Layout.scExact {α : Type} (lay : Layout α) : ℕ :=
  (lay.binomial_coefs.map (fun p => Nat.choose p.1.card p.2)).prod

/-- Exact solution count summed over a list of layouts. -/
def scExactSum {α : Type} (ls : List (Layout α)) : ℕ :=
  (ls.map Layout.scExact).sum

/-- One iteration of the `for lay in layouts` loop inside `Layout::split`:
fork a single layout so that `new_key` becomes one of its groups.  `none`
models the `expect("Unexpected parameters to split")`, the non-emptiness
assertion on the complement, a failed `Layout::new`, and the final
`assert!(pushed != 0)`. -/
def Layout.splitOne {α : Type} [DecidableEq α] (new_key : Finset α) (lay : Layout α) :
    Option (List (Layout α)) := do
  let old ← lay.binomial_coefs.find? (fun p => new_key ⊆ p.1)
  if new_key = old.1 then
    some [lay]
  else
    let new_key2 := old.1 \ new_key
    if new_key2 = ∅ then none
    else
      let bc := BMap.eraseKey lay.binomial_coefs old.1
      let candidates := (List.range (old.2 + 1)).filter
        (fun i => i ≤ new_key.card ∧ old.2 - i ≤ new_key2.card)
      let forks ← omapM
        (fun i => Layout.new (BMap.insert (BMap.insert bc new_key i) new_key2 (old.2 - i)))
        candidates
      if forks = [] then none else some forks

/-- `Layout::split`: fork all the layouts in the list so that each contains
`new_key` as a group. -/
def Layout.split {α : Type} [DecidableEq α] (layouts : List (Layout α)) (new_key : Finset α) :
    Option (List (Layout α)) := do
  let rss ← omapM (Layout.splitOne new_key) layouts
  some rss.flatten

/-- One iteration of the nested loops of `Layout::align_with_keys`. -/
def Layout.awkStep {α : Type} [DecidableEq α] (res : List (Layout α))
    (left_key right_key : Finset α) : Option (List (Layout α)) :=
  if Disjoint left_key right_key then some res
  else
    let inter := left_key ∩ right_key
    if left_key = inter then some res
    else Layout.split res inter

/-- The inner `for right_key in right_keys` loop of `Layout::align_with_keys`. -/
def Layout.awkInner {α : Type} [DecidableEq α] (left_key : Finset α) :
    List (Finset α) → List (Layout α) → Option (List (Layout α))
  | [], res => some res
  | rk :: rks, res => do
    let res' ← Layout.awkStep res left_key rk
    Layout.awkInner left_key rks res'

/-- The outer `for left_key in self.binomial_coefs.keys()` loop of
`Layout::align_with_keys`. -/
def Layout.awkOuter {α : Type} [DecidableEq α] (right_keys : List (Finset α)) :
    List (Finset α) → List (Layout α) → Option (List (Layout α))
  | [], res => some res
  | lk :: lks, res => do
    let res' ← Layout.awkInner lk right_keys res
    Layout.awkOuter right_keys lks res'

/-- `Layout::align_with_keys`: fork a layout until its groups are compatible
with `right_keys`. -/
def Layout.align_with_keys {α : Type} [DecidableEq α] (self : Layout α)
    (right_keys : List (Finset α)) : Option (List (Layout α)) :=
  Layout.awkOuter right_keys (BMap.keys self.binomial_coefs) [self]

/-- The `left_key_per_coords` map built by `Layout::aligned_with`, read back
at one coordinate: the last key of `self` containing `c` wins, because
`BTreeMap::insert` overwrites. -/
def Layout.keyAt {α : Type} [DecidableEq α] (self : Layout α) (c : α) : Option (Finset α) :=
  (BMap.keys self.binomial_coefs).reverse.find? (fun kl => c ∈ kl)

/-- `Layout::aligned_with`: two layouts share the same keys on their
intersection.  A `BTreeSet` iterates its coordinates in sorted order. -/
def Layout.aligned_with {α : Type} [LinearOrder α] (self other : Layout α) : Bool :=
  (BMap.keys other.binomial_coefs).all (fun kr =>
    (fsort kr).all (fun c =>
      match Layout.keyAt self c with
      | none => true
      | some kl => decide (kl = kr)))

/-- The key-set uniformity check of `Layout::are_aligned`: all layouts of the
list carry the same key set. -/
def sameKeySets {α : Type} [DecidableEq α] : List (Layout α) → Bool
  | [] => true
  | hd :: tl => tl.all (fun l =>
      decide ((BMap.keys l.binomial_coefs).toFinset = (BMap.keys hd.binomial_coefs).toFinset))

/-- `Layout::are_aligned`. -/
def Layout.are_aligned {α : Type} [LinearOrder α] (left right : List (Layout α)) : Bool :=
  sameKeySets left && sameKeySets right &&
    (match left, right with
     | hl :: _, hr :: _ => Layout.aligned_with hl hr
     | _, _ => true)

/-- `Layout::align`: reshape two layouts to give them the same keys on their
intersection; `none` models the `assert!(Self::are_aligned(..))`. -/
def Layout.align {α : Type} [LinearOrder α] (self other : Layout α) :
    Option (List (Layout α) × List (Layout α)) := do
  let left_keys := BMap.keys self.binomial_coefs
  let right_keys := BMap.keys other.binomial_coefs
  let left ← self.align_with_keys right_keys
  let right ← other.align_with_keys left_keys
  if Layout.are_aligned left right then some (left, right) else none

/-- The `inter_keys.iter().all(..)` check inside `Layout::merge`, with the
same short-circuiting: indexing a missing key panics (`none`) only if no
earlier shared key already disagreed. -/
def Layout.mergeAgree {α : Type} [DecidableEq α] (l r : Layout α) :
    List (Finset α) → Option Bool
  | [] => some true
  | k :: tl => do
    let a ← BMap.lookup l.binomial_coefs k
    let b ← BMap.lookup r.binomial_coefs k
    if a = b then Layout.mergeAgree l r tl else some false

/-- `Layout::merge`: align, then cross-product the two layout lists, keeping
the pairs that agree on the shared keys and joining their maps (the right
layout's bindings overwrite the shared ones). -/
def Layout.mergeL {α : Type} [LinearOrder α] (self other : Layout α) :
    Option (List (Layout α)) := do
  let pr ← Layout.align self other
  let lh ← pr.1.head?
  let rh ← pr.2.head?
  let inter_keys := (BMap.keys lh.binomial_coefs).filter
    (fun k => k ∈ BMap.keys rh.binomial_coefs)
  let rows ← omapM (fun ll => do
      let cells ← omapM (fun rl => do
          let agree ← Layout.mergeAgree ll rl inter_keys
          if agree then
            let bc := rl.binomial_coefs.foldl (fun bc p => BMap.insert bc p.1 p.2)
              ll.binomial_coefs
            (Layout.new bc).map (fun l => [l])
          else some []) pr.2
      some cells.flatten) pr.1
  some rows.flatten

/-- `multiverse::State`. -/
inductive MvState where
  | Running
  | Stuck
  | Empty
  deriving DecidableEq, Repr

/-- A `multiverse::Multiverse`: a scope and the list of layouts describing
its permitted colourings. -/
structure Multiverse (α : Type) where
  scope : Finset α
  layouts : List (Layout α)
  deriving DecidableEq

/-- `Multiverse::new` asserts, for every layout, that the union of its
groups equals the scope; `none` models the failed assertion. -/
def Multiverse.new {α : Type} [DecidableEq α] (scope : Finset α) (layouts : List (Layout α)) :
    Option (Multiverse α) :=
  if ∀ lay ∈ layouts, Layout.layUnion lay = scope then some ⟨scope, layouts⟩ else none

/-- `Multiverse::empty`. -/
def Multiverse.empty {α : Type} : Multiverse α :=
  ⟨∅, []⟩

/-- `Multiverse::state`; the `(true, false)` combination panics
(`Corrupted multiverse`), modelled as `none`. -/
def Multiverse.state {α : Type} [DecidableEq α] (mv : Multiverse α) : Option MvState :=
  match decide (mv.scope = ∅), decide (mv.layouts = []) with
  | true, true => some MvState.Empty
  | false, false => some MvState.Running
  | false, true => some MvState.Stuck
  | true, false => none

/-- The fold of `Multiverse::solution_count_upper_bound`: checked 64-bit sum
of the per-layout solution counts. -/
def Multiverse.scubGo {α : Type} : ℕ → List (Layout α) → Option ℕ
  | i, [] => some i
  | i, lay :: tl =>
    match lay.solution_count.bind (checkedAdd i) with
    | none => none
    | some r => Multiverse.scubGo r tl

/-- `Multiverse::solution_count_upper_bound`. -/
def Multiverse.solution_count_upper_bound {α : Type} (mv : Multiverse α) : Option ℕ :=
  Multiverse.scubGo 0 mv.layouts

/-- One group step of the purge loop in `Multiverse::invariants`: a group
with no blues purges `blue_for_sure`, a full-blue group purges
`black_for_sure`, anything else purges both.  The element-removal loops are
written as set differences. -/
def purgePair {α : Type} [DecidableEq α] (st : Finset α × Finset α) (G : Finset α) (k : ℕ) :
    Finset α × Finset α :=
  if k = 0 then (st.1 \ G, st.2)
  else if k = G.card then (st.1, st.2 \ G)
  else (st.1 \ G, st.2 \ G)

/-- The inner loop of `Multiverse::invariants` over one layout's groups,
with the early `break` once both candidate sets are empty. -/
def purgeGroups {α : Type} [DecidableEq α] :
    Finset α × Finset α → List (Finset α × ℕ) → Finset α × Finset α
  | st, [] => st
  | st, p :: tl =>
    let st' := purgePair st p.1 p.2
    if st'.1 = ∅ ∧ st'.2 = ∅ then st' else purgeGroups st' tl

/-- The outer loop of `Multiverse::invariants` over the layouts, with the
early `break`. -/
def purgeLayouts {α : Type} [DecidableEq α] :
    Finset α × Finset α → List (Layout α) → Finset α × Finset α
  | st, [] => st
  | st, lay :: tl =>
    let st' := purgeGroups st lay.binomial_coefs
    if st'.1 = ∅ ∧ st'.2 = ∅ then st' else purgeLayouts st' tl

/-- `Multiverse::invariants`.  The final `BTreeMap` is built by inserting
every surviving blue coordinate and then every surviving black coordinate
(overwriting); reading the map back in key order yields the sorted list of
survivors, black winning on a coordinate present in both sets. -/
def Multiverse.invariants {α : Type} [LinearOrder α] (mv : Multiverse α) : List (α × Color) :=
  let st := purgeLayouts (mv.scope, mv.scope) mv.layouts
  (fsort (st.1 ∪ st.2)).map
    (fun c => (c, if c ∈ st.2 then Color.Black else Color.Blue))

/-- The body of the `filter_map` in `Multiverse::learn`.  The outer `Option`
models panics (indexing a missing `{c}` key, the `2..=u16::MAX` arm, a
failed `Layout::new`); the inner `Option` is the `filter_map` skip. -/
def learnStep {α : Type} [DecidableEq α] (key : Finset α) (color : Color) (lay : Layout α) :
    Option (Option (Layout α)) :=
  match BMap.lookup lay.binomial_coefs key with
  | none => none
  | some 0 =>
    match color with
    | Color.Black => (Layout.new (BMap.eraseKey lay.binomial_coefs key)).map some
    | Color.Blue => some none
  | some 1 =>
    match color with
    | Color.Blue => (Layout.new (BMap.eraseKey lay.binomial_coefs key)).map some
    | Color.Black => some none
  | some (_ + 2) => none

/-- `Multiverse::learn`: specialise the multiverse assuming `c` has the
given colour.  The second guard models `assert!(scope.remove(coords))`. -/
def Multiverse.learn {α : Type} [DecidableEq α] (mv : Multiverse α) (c : α) (color : Color) :
    Option (Multiverse α) :=
  let key : Finset α := {c}
  if mv.scope = key then some Multiverse.empty
  else if c ∈ mv.scope then do
    let scope := mv.scope.erase c
    let layouts ← Layout.split mv.layouts key
    let kept ← omapM (learnStep key color) layouts
    Multiverse.new scope (kept.filterMap id)
  else none

/-- `Multiverse::merge`.  Both states are computed first (either can panic);
`Empty` is the identity, any `Stuck` gives a `Stuck` result over the union
scope, two `Running` multiverses cross-product their layout merges. -/
def Multiverse.merge {α : Type} [LinearOrder α] (self other : Multiverse α) :
    Option (Multiverse α) := do
  let scope := self.scope ∪ other.scope
  let s1 ← self.state
  let s2 ← other.state
  match s1, s2 with
  | MvState.Empty, _ => some other
  | _, MvState.Empty => some self
  | MvState.Stuck, _ => Multiverse.new scope []
  | _, MvState.Stuck => Multiverse.new scope []
  | MvState.Running, MvState.Running => do
    let rows ← omapM (fun ll => do
        let cells ← omapM (fun rl => Layout.mergeL ll rl) other.layouts
        some cells.flatten) self.layouts
    Multiverse.new scope rows.flatten

/-- The validity of a multiverse as maintained by the program: every layout
passed `Layout::new` and covers exactly the scope (`Multiverse::new`). -/
def Multiverse.WF {α : Type} [DecidableEq α] (mv : Multiverse α) : Prop :=
  ∀ lay ∈ mv.layouts, Layout.WFb lay.binomial_coefs ∧ Layout.layUnion lay = mv.scope

instance {α : Type} [DecidableEq α] (mv : Multiverse α) : Decidable (mv.WF) := by
  unfold Multiverse.WF; infer_instance

/-- `constraint::distribute_anywhere`: single layout `{S ↦ k}`; the empty
scope requires `k = 0` and yields the Empty multiverse. -/
def distribute_anywhere {α : Type} [DecidableEq α] (scope_vec : List α) (blue_count : ℕ) :
    Option (Multiverse α) :=
  if scope_vec.length = 0 then
    if blue_count = 0 then some Multiverse.empty else none
  else
    if scope_vec.length < blue_count then none
    else do
      let scope_set := scope_vec.toFinset
      let layout ← Layout.new [(scope_set, blue_count)]
      Multiverse.new scope_set [layout]

/-- The `for i in i0..(i0 + blue_count)` loop of `constraint::distribute_together`:
move `steps` consecutive cells of `scope_vec`, starting at index `i`, from
`blacks` to `blues`; `none` models an out-of-bounds index or the failed
`assert!(blacks.remove(&coords))`. -/
def dtMove {α : Type} [DecidableEq α] (scope_vec : List α) :
    ℕ → ℕ → Finset α × Finset α → Option (Finset α × Finset α)
  | _, 0, st => some st
  | i, steps + 1, st => do
    let coords ← scope_vec.get? i
    if coords ∈ st.2 then dtMove scope_vec (i + 1) steps (insert coords st.1, st.2.erase coords)
    else none

/-- One iteration of the `for i0 in 0..solution_count` loop of
`constraint::distribute_together`: build the layout whose contiguous blue
run starts at index `i0` (blues group, then remaining blacks group), with
the loop's `assert_eq!`s modelled as `none`. -/
def dtBody {α : Type} [DecidableEq α] (scope_vec : List α) (blue_count : ℕ) (i0 : ℕ) :
    Option (Layout α) := do
  let st ← dtMove scope_vec i0 blue_count (∅, scope_vec.toFinset)
  if st.1.card ≠ blue_count then none
  else if st.2.card + st.1.card ≠ scope_vec.length then none
  else
    let m := if st.1 = ∅ then ([] : List (Finset α × ℕ)) else [(st.1, blue_count)]
    let m := if st.2 = ∅ then m else m ++ [(st.2, 0)]
    Layout.new m

/-- `constraint::distribute_together`: one layout per placement of the
contiguous blue run, with the degenerate `k = 0` / `k = n` cases collapsed
to a single one-group layout.  The trailing guard models the final
`assert_eq!` against `solution_count_upper_bound`. -/
def distribute_together {α : Type} [DecidableEq α] (scope_vec : List α) (blue_count : ℕ) :
    Option (Multiverse α) := do
  if scope_vec.length = 0 then none
  else if scope_vec.length < blue_count then none
  else do
    let solution_count :=
      if blue_count = 0 ∨ blue_count = scope_vec.length then 1
      else scope_vec.length - blue_count + 1
    if solution_count = 0 then none
    else do
      let layouts ← omapM (dtBody scope_vec blue_count) (List.range solution_count)
      let mv ← Multiverse.new scope_vec.toFinset layouts
      if mv.solution_count_upper_bound = some solution_count then some mv else none

/-- `constraint::distribute_separated`: one layout per (pivot, left-count)
pair; the pivot cell is black, at least one blue sits strictly before it and
at least one strictly after it. -/
def distribute_separated {α : Type} [DecidableEq α] (scope_vec : List α) (blue_count : ℕ) :
    Option (Multiverse α) := do
  if blue_count < 2 then none
  else if scope_vec.length < 3 then none
  else if scope_vec.length ≤ blue_count then none
  else do
    let scope_set := scope_vec.toFinset
    let pivot_position_count := scope_vec.length - 2
    let rows ← omapM (fun ipivot => do
        let pv ← scope_vec.get? ipivot
        let pivot : Finset α := {pv}
        let before := (scope_vec.take ipivot).toFinset
        let after := (scope_vec.drop (ipivot + 1)).toFinset
        if before.card + 1 + after.card ≠ scope_vec.length then none
        else do
          let opts ← omapM (fun i => do
              let j := blue_count - i
              if j = 0 then none
              else if i > before.card ∨ j > after.card then some none
              else (Layout.new [(before, i), (pivot, 0), (after, j)]).map some)
            (List.range' 1 (blue_count - 1))
          some (opts.filterMap id))
      (List.range' 1 pivot_position_count)
    Multiverse.new scope_set rows.flatten

/-- The `itertools` `combinations` of a sorted index list, in the order the
iterator produces them. -/
def combosL {β : Type} : ℕ → List β → List (List β)
  | 0, _ => [[]]
  | _ + 1, [] => []
  | k + 1, x :: xs => (combosL k xs).map (fun c => x :: c) ++ combosL (k + 1) xs

/-- `constraint::has_compatible_contiguity` on ring indices `0..=5`.
`none` models the `expect("Can't be empty")` on an empty colour class and
the two asserts of the doubly-contiguous case. -/
def has_compatible_contiguity (blues blacks : List ℕ) (together : Bool) : Option Bool := do
  let last_blue ← blues.getLast?
  let first_blue ← blues.head?
  let all_blues_tog := decide (last_blue - first_blue = blues.length - 1)
  let last_black ← blacks.getLast?
  let first_black ← blacks.head?
  let all_blacks_tog := decide (last_black - first_black = blacks.length - 1)
  match all_blues_tog, all_blacks_tog with
  | true, true =>
    if ¬(first_blue = 0 ∨ first_black = 0) then none
    else if ¬(last_blue = 5 ∨ last_black = 5) then none
    else some together
  | true, false => some together
  | false, true => some together
  | false, false => some (!together)

/-- The `for i in &blues` gap check inside `distribute_in_ring`, with the
source's early `break`. -/
def anyGapBlue {α : Type} (scope_arr : List (α × Bool)) : List ℕ → Option Bool
  | [] => some false
  | i :: tl => do
    let p ← scope_arr.get? i
    if p.2 then some true else anyGapBlue scope_arr tl

/-- The body of the `for blues in idxs.iter().combinations(blue_count)` loop
of `distribute_in_ring`: `some none` is a `continue`, `none` a panic. -/
def ringBody {α : Type} [DecidableEq α] (scope_arr : List (α × Bool)) (blue_count : ℕ)
    (together : Bool) (blues : List ℕ) : Option (Option (Layout α)) := do
  let gapBlue ← anyGapBlue scope_arr blues
  if gapBlue then some none
  else do
    let blacks := (List.range 6).filter (fun i => i ∉ blues)
    let compat ← has_compatible_contiguity blues blacks together
    if ¬compat then some none
    else do
      let bluesC ← omapM (fun i => (scope_arr.get? i).map Prod.fst) blues
      let blacksE ← omapM (fun i => scope_arr.get? i) blacks
      let blacksC := (blacksE.filter (fun p => !p.2)).map Prod.fst
      let bluesS := bluesC.toFinset
      let blacksS := blacksC.toFinset
      let scope_set := ((scope_arr.filter (fun p => !p.2)).map Prod.fst).toFinset
      if scope_set.card ≠ bluesS.card + blacksS.card then none
      else
        let bc := [(bluesS, blue_count)] ++ (if blacksS = ∅ then [] else [(blacksS, (0 : ℕ))])
        (Layout.new bc).map some

/-- The main enumeration of `constraint::distribute_in_ring` (everything
after the modifier-specific entry checks). -/
def ringCore {α : Type} [DecidableEq α] (scope_arr : List (α × Bool)) (blue_count : ℕ)
    (together : Bool) : Option (Multiverse α) := do
  let scope_set := ((scope_arr.filter (fun p => !p.2)).map Prod.fst).toFinset
  let opts ← omapM (ringBody scope_arr blue_count together) (combosL blue_count (List.range 6))
  let layouts := opts.filterMap id
  if layouts = [] then none
  else Multiverse.new scope_set layouts

/-- `constraint::distribute_in_ring`: Zone6 Together degenerates to
Anywhere for `k ≤ 1` or `k = n`; Zone6 Separated asserts `k ≥ 2` with no
degenerate fallback. -/
def distribute_in_ring {α : Type} [DecidableEq α] (scope_arr : List (α × Bool)) (blue_count : ℕ)
    (together : Bool) : Option (Multiverse α) :=
  if together then
    let scope_vec := (scope_arr.filter (fun p => !p.2)).map Prod.fst
    if blue_count ≤ 1 ∨ blue_count = scope_vec.length then
      distribute_anywhere scope_vec blue_count
    else ringCore scope_arr blue_count together
  else
    if blue_count < 2 then none
    else ringCore scope_arr blue_count together

/-- `misc::Coords`: hex cube coordinates storing `q` and `r`, with
`s = -(q + r)` derived.  The source stores `i16`; the 33×33 grid keeps all
coordinates (and the `(999, 0, -999)` sentinel) far inside that range, so
`Int` is used here. -/
structure Coords where
  q : ℤ
  r : ℤ
  deriving DecidableEq, Repr

/-- The derived third cube coordinate. -/
def Coords.s (c : Coords) : ℤ := -c.q - c.r

/-- The derived `Ord` of the Rust struct: lexicographic on `(q, r)`. -/
instance : LinearOrder Coords :=
  LinearOrder.lift' (fun c => toLex (c.q, c.r))
    (fun a b h => by
      cases a; cases b
      simpa [Prod.ext_iff] using h)

/-- `Coords::neighbors6`, clockwise from top.  Each entry satisfies
`q + r + s = 0`, so the constructor check of `Coords::new` always passes. -/
def Coords.neighbors6 (c : Coords) : List Coords :=
  [⟨c.q, c.r - 1⟩, ⟨c.q + 1, c.r - 1⟩, ⟨c.q + 1, c.r⟩,
   ⟨c.q, c.r + 1⟩, ⟨c.q - 1, c.r + 1⟩, ⟨c.q - 1, c.r⟩]

/-- `Coords::neighbors18`: the 6-ring plus the outer 12-ring. -/
def Coords.neighbors18 (c : Coords) : List Coords :=
  [⟨c.q, c.r - 1⟩, ⟨c.q + 1, c.r - 1⟩, ⟨c.q + 1, c.r⟩,
   ⟨c.q, c.r + 1⟩, ⟨c.q - 1, c.r + 1⟩, ⟨c.q - 1, c.r⟩,
   ⟨c.q, c.r - 2⟩, ⟨c.q + 1, c.r - 2⟩, ⟨c.q + 2, c.r - 2⟩,
   ⟨c.q + 2, c.r - 1⟩, ⟨c.q + 2, c.r⟩, ⟨c.q + 1, c.r + 1⟩,
   ⟨c.q, c.r + 2⟩, ⟨c.q - 1, c.r + 2⟩, ⟨c.q - 2, c.r + 2⟩,
   ⟨c.q - 2, c.r + 1⟩, ⟨c.q - 2, c.r⟩, ⟨c.q - 1, c.r - 1⟩]

/-- `defn::Modifier`. -/
inductive Modifier where
  | Anywhere
  | Together
  | Separated
  deriving DecidableEq, Repr

/-- `defn::Orientation` (named `HexDir` here; `Orientation` is taken by Mathlib). -/
inductive HexDir where
  | BottomRight
  | Bottom
  | BottomLeft
  deriving DecidableEq, Repr

/-- `defn::Cell`. -/
inductive Cell where
  | Empty
  | Zone0 (revealed : Bool) (color : Color)
  | Zone6 (revealed : Bool) (m : Modifier)
  | Zone18 (revealed : Bool)
  | Line (o : HexDir) (m : Modifier)
  deriving DecidableEq, Repr

/-- `defn::Defn`: the puzzle, a map from coordinates to cells. -/
abbrev Defn := List (Coords × Cell)

/-- `defn::color_of_cell`. -/
def color_of_cell : Cell → Option Color
  | Cell.Empty => none
  | Cell.Line _ _ => none
  | Cell.Zone0 _ color => some color
  | Cell.Zone6 _ _ => some Color.Black
  | Cell.Zone18 _ => some Color.Blue

/-- The expression `defn.get(&c).and_then(defn::color_of_cell)` used by all
constraint builders. -/
def cellColorAt (defn : Defn) (c : Coords) : Option Color :=
  (BMap.lookup defn c).bind color_of_cell

/-- The number of blue cells among the six direct neighbours of `coords`
(the `blue_count` accumulated by `constraint::zone6` while mapping the
neighbourhood). -/
def zone6_blue_count (defn : Defn) (coords : Coords) : ℕ :=
  ((Coords.neighbors6 coords).filter (fun c => cellColorAt defn c = some Color.Blue)).length

/-- `constraint::zone6`: scope is the coloured neighbours (with gaps marked
for `distribute_in_ring`), the clue is the number of blue neighbours. -/
def zone6 (defn : Defn) (coords : Coords) (modifier : Modifier) : Option (Multiverse Coords) :=
  let neighborhood := Coords.neighbors6 coords
  let scope_arr := neighborhood.map (fun c => (c, (cellColorAt defn c).isNone))
  let blue_count := zone6_blue_count defn coords
  match modifier with
  | Modifier.Anywhere =>
    distribute_anywhere ((scope_arr.filter (fun p => !p.2)).map Prod.fst) blue_count
  | Modifier.Together => distribute_in_ring scope_arr blue_count true
  | Modifier.Separated => distribute_in_ring scope_arr blue_count false

/-- `constraint::zone18`. -/
def zone18 (defn : Defn) (coords : Coords) : Option (Multiverse Coords) :=
  let scope := (Coords.neighbors18 coords).filter (fun c => (cellColorAt defn c).isSome)
  let blue_count :=
    ((Coords.neighbors18 coords).filter (fun c => cellColorAt defn c = some Color.Blue)).length
  distribute_anywhere scope blue_count

/-- `constraint::line`: walk up to 33 steps in the orientation's direction,
collecting coloured cells in order (the `s` delta of the source is the one
implied by `s = -(q + r)`). -/
def line (defn : Defn) (coords : Coords) (o : HexDir) (m : Modifier) :
    Option (Multiverse Coords) :=
  let d : ℤ × ℤ :=
    match o with
    | HexDir.Bottom => (0, 1)
    | HexDir.BottomRight => (1, 0)
    | HexDir.BottomLeft => (-1, 1)
  let cells := (List.range 33).map
    (fun i => (⟨coords.q + d.1 * (i : ℤ), coords.r + d.2 * (i : ℤ)⟩ : Coords))
  let scope := cells.filter (fun c => (cellColorAt defn c).isSome)
  let blue_count := (cells.filter (fun c => cellColorAt defn c = some Color.Blue)).length
  match m with
  | Modifier.Anywhere => distribute_anywhere scope blue_count
  | Modifier.Together => distribute_together scope blue_count
  | Modifier.Separated => distribute_separated scope blue_count

/-- `constraint::global_blue_count`: every coloured cell of the puzzle, with
the total number of blues as the clue. -/
def global_blue_count (defn : Defn) : Option (Multiverse Coords) :=
  let scope := (defn.filter (fun p => (color_of_cell p.2).isSome)).map Prod.fst
  let blue_count := (defn.filter (fun p => color_of_cell p.2 = some Color.Blue)).length
  distribute_anywhere scope blue_count

/-- Modelled from the spec: `env.rs` measures wall-clock time with
`Instant::now()`/`elapsed()`, which has no shallow embedding; following §5
of the spec (a wall-clock budget checked between constraint-merge steps,
reset at the start of Tier 2), real time is abstracted as an oracle
`expired` that answers, for each successive `check_timeout` call since the
last timer reset, whether the budget has expired. -/
structure Env where
  expired : ℕ → Bool
  calls : ℕ

/-- `env::Timeout`, the error surfaced on budget expiry. -/
structure Timeout where
  deriving DecidableEq, Repr

/-- `Env::check_timeout`. -/
def Env.check_timeout (e : Env) : Except Timeout Env :=
  if e.expired e.calls then Except.error ⟨⟩ else Except.ok { e with calls := e.calls + 1 }

/-- `Env::reset_timer`. -/
def Env.reset_timer (e : Env) : Env :=
  { e with calls := 0 }

/-- `solver::Progress`. -/
structure Progress where
  blues : Finset Coords
  blacks : Finset Coords
  unknowns : Finset Coords
  deriving DecidableEq

/-- The `add` closure of `Progress::of_defn`. -/
def progressAdd (p : Progress) (coords : Coords) (revealed : Bool) (color : Color) : Progress :=
  match revealed, color with
  | false, _ => { p with unknowns := insert coords p.unknowns }
  | true, Color.Black => { p with blacks := insert coords p.blacks }
  | true, Color.Blue => { p with blues := insert coords p.blues }

/-- `Progress::of_defn`. -/
def Progress.of_defn (defn : Defn) : Progress :=
  defn.foldl (fun p q =>
    match q.2 with
    | Cell.Empty => p
    | Cell.Line _ _ => p
    | Cell.Zone0 revealed color => progressAdd p q.1 revealed color
    | Cell.Zone6 revealed _ => progressAdd p q.1 revealed Color.Black
    | Cell.Zone18 revealed => progressAdd p q.1 revealed Color.Blue)
    ⟨∅, ∅, ∅⟩

/-- `Progress::is_solved`. -/
def Progress.is_solved (p : Progress) : Bool :=
  decide (p.unknowns = ∅)

/-- `Progress::update`. -/
def Progress.update (p : Progress) (findings : List (Coords × Color)) : Progress :=
  findings.foldl (fun p pr =>
    match pr.2 with
    | Color.Black =>
      { p with unknowns := p.unknowns.erase pr.1, blacks := insert pr.1 p.blacks }
    | Color.Blue =>
      { p with unknowns := p.unknowns.erase pr.1, blues := insert pr.1 p.blues }) p

/-- `solver::Constraints`. -/
structure Constraints where
  constraints_hidden : List (Coords × Multiverse Coords)
  constraints_visible : List (Coords × Multiverse Coords)
  constraints_exhausted : Finset Coords
  deriving DecidableEq

/-- The sentinel key of the global constraint (`solver::UNIQUE_COORDS`,
`(999, 0, -999)`). -/
def UNIQUE_COORDS : Coords := ⟨999, 0⟩

/-- `Constraints::of_defn`; `none` models a panicking constraint builder. -/
def Constraints.of_defn (defn : Defn) : Option Constraints := do
  let hv ← defn.foldlM
    (fun (acc : List (Coords × Multiverse Coords) × List (Coords × Multiverse Coords)) q => do
      match q.2 with
      | Cell.Empty => some acc
      | Cell.Zone0 _ _ => some acc
      | Cell.Line o m => do
        let mv ← line defn q.1 o m
        some (acc.1, BMap.insert acc.2 q.1 mv)
      | Cell.Zone6 _ m => do
        let mv ← zone6 defn q.1 m
        some (BMap.insert acc.1 q.1 mv, acc.2)
      | Cell.Zone18 _ => do
        let mv ← zone18 defn q.1
        some (BMap.insert acc.1 q.1 mv, acc.2))
    ([], [])
  let g ← global_blue_count defn
  some ⟨hv.1, BMap.insert hv.2 UNIQUE_COORDS g, ∅⟩

/-- `Constraints::reveal`: move every hidden constraint whose home cell is
now visible into the visible map (its key is fresh there, so the
`BTreeMap::insert` is an addition). -/
def Constraints.reveal (cs : Constraints) (visible_cells : Finset Coords) : Constraints :=
  { cs with
    constraints_hidden := cs.constraints_hidden.filter (fun p => p.1 ∉ visible_cells),
    constraints_visible := cs.constraints_visible ++
      cs.constraints_hidden.filter (fun p => p.1 ∈ visible_cells) }

/-- `Constraints::narrow`: specialise every visible multiverse with the
coordinates of its scope that have become visible (a `BTreeSet` intersection
iterates in sorted order). -/
def Constraints.narrow (cs : Constraints) (visible_cells : Finset Coords)
    (progress : Progress) : Option Constraints := do
  let vis ← omapM (fun (p : Coords × Multiverse Coords) => do
      let inter := p.2.scope ∩ visible_cells
      if inter = ∅ then some p
      else do
        let mv ← (fsort (inter ∩ progress.blues)).foldlM
          (fun mv c => Multiverse.learn mv c Color.Blue) p.2
        let mv ← (fsort (inter ∩ progress.blacks)).foldlM
          (fun mv c => Multiverse.learn mv c Color.Black) mv
        some (p.1, mv)) cs.constraints_visible
  some { cs with constraints_visible := vis }

/-- `Constraints::gc`: drop exhausted (`Empty`) constraints into the
exhausted set; a `Stuck` constraint is the `"The grid is bugged"` panic. -/
def Constraints.gc (cs : Constraints) : Option Constraints := do
  let states ← omapM (fun (p : Coords × Multiverse Coords) =>
      (p.2.state).map (fun s => (p, s))) cs.constraints_visible
  if states.any (fun q => q.2 = MvState.Stuck) then none
  else
    some { cs with
      constraints_visible := (states.filter (fun q => q.2 = MvState.Running)).map Prod.fst,
      constraints_exhausted := cs.constraints_exhausted ∪
        ((states.filter (fun q => q.2 = MvState.Empty)).map (fun q => q.1.1)).toFinset }

/-- `Constraints::is_solved`. -/
def Constraints.is_solved (cs : Constraints) : Bool :=
  decide (cs.constraints_visible = []) && decide (cs.constraints_hidden = [])

/-- One found invariant being recorded into the accumulator map, with both
asserts of the source: an already-present coordinate must agree, and the
colour must match the puzzle's true colour (`defn[&coords]` panics when the
coordinate is absent, which the colour comparison subsumes). -/
def recordInvariant (defn : Defn) (acc : List (Coords × Color)) (pr : Coords × Color) :
    Option (List (Coords × Color)) :=
  if (BMap.lookup acc pr.1).all (fun c => decide (c = pr.2)) then
    if cellColorAt defn pr.1 = some pr.2 then some (BMap.insert acc pr.1 pr.2)
    else none
  else none

/-- `Constraints::trivial_invariants`. -/
def Constraints.trivial_invariants (cs : Constraints) (defn : Defn) :
    Option (List (Coords × Color)) :=
  cs.constraints_visible.foldlM (fun acc p =>
    (p.2.invariants).foldlM (recordInvariant defn) acc) []

/-- `solver::Difficulty`. -/
inductive Difficulty where
  | Global : ℕ → Difficulty
  | Local : ℕ → Difficulty
  deriving DecidableEq, Repr

/-- Modelled from the spec: `solver.rs` narrows and merges constraint groups
through `Multiverse::intersection`, which is absent from
`src/multiverse.rs`; §4.4/§4.5 of the spec describe the solver as combining
constraints with `merge`, so `intersection` is `merge`. -/
def Multiverse.intersection {α : Type} [LinearOrder α] (self other : Multiverse α) :
    Option (Multiverse α) :=
  Multiverse.merge self other

/-- The connection graph built at the start of
`Constraints::compound_invariants` (an edge between two non-global visible
constraints whose scopes intersect). -/
def Constraints.connections (cs : Constraints) : Option (List (Coords × Finset Coords)) := do
  let keys := BMap.keys cs.constraints_visible
  let init : List (Coords × Finset Coords) := keys.map (fun k => (k, ∅))
  (combosL 2 keys).foldlM (fun conns pair => do
      match pair with
      | [k0, k1] =>
        if k0 = UNIQUE_COORDS ∨ k1 = UNIQUE_COORDS then some conns
        else do
          let mv0 ← BMap.lookup cs.constraints_visible k0
          let mv1 ← BMap.lookup cs.constraints_visible k1
          if ¬Disjoint mv0.scope mv1.scope then do
            let s0 ← BMap.lookup conns k0
            let conns := BMap.insert conns k0 (insert k1 s0)
            let s1 ← BMap.lookup conns k1
            some (BMap.insert conns k1 (insert k0 s1))
          else some conns
      | _ => none) init

/-- The `for kset_old in constraints_groups.keys()` pass of the Tier-2 loop:
remove each snapshot group, time-check, and enlarge it by every neighbouring
constraint not already giving a known group. -/
def cgInner (cs : Constraints) (conns : List (Coords × Finset Coords)) :
    Env → List (Finset Coords × Multiverse Coords) → List (Finset Coords) →
    Option (Except Timeout (Env × List (Finset Coords × Multiverse Coords)))
  | env, groups, [] => some (Except.ok (env, groups))
  | env, groups, kset :: tl =>
    match env.check_timeout with
    | Except.error t => some (Except.error t)
    | Except.ok env => do
      let mv_old ← BMap.lookup groups kset
      let groups := BMap.eraseKey groups kset
      let neigh ← (fsort kset).foldlM (fun acc k => do
          let cset ← BMap.lookup conns k
          some (acc ∪ cset.filter (fun k2 => k2 ∉ kset))) (∅ : Finset Coords)
      let groups ← (fsort neigh).foldlM (fun groups k_new => do
          let kset_new := insert k_new kset
          if (BMap.lookup groups kset_new).isSome then some groups
          else do
            let mv_new ← BMap.lookup cs.constraints_visible k_new
            let merged ← Multiverse.intersection mv_old mv_new
            some (BMap.insert groups kset_new merged)) groups
      cgInner cs conns env groups tl

/-- The unbounded `loop` of `Constraints::compound_invariants`, driven by a
fuel parameter (`none` on exhaustion); each pass enlarges every group by one
neighbour, then harvests invariants from all groups. -/
def cgOuter (cs : Constraints) (conns : List (Coords × Finset Coords)) (defn : Defn) :
    ℕ → Env → List (Finset Coords × Multiverse Coords) → List (Coords × Color) → ℕ →
    Option (Except Timeout (List (Coords × Color) × Difficulty × Env))
  | 0, _, _, _, _ => none
  | fuel + 1, env, groups, invariants, difficulty => do
    match ← cgInner cs conns env groups (BMap.keys groups) with
    | Except.error t => some (Except.error t)
    | Except.ok (env, groups) => do
      let invariants ← groups.foldlM (fun acc p =>
          (p.2.invariants).foldlM (recordInvariant defn) acc) invariants
      if invariants ≠ [] then some (Except.ok (invariants, Difficulty.Local difficulty, env))
      else if groups = [] then some (Except.ok (invariants, Difficulty.Local difficulty, env))
      else cgOuter cs conns defn fuel env groups invariants (difficulty + 1)

/-- `Constraints::compound_invariants` (Tier 2). -/
def Constraints.compound_invariants (cs : Constraints) (fuel : ℕ) (env : Env) (defn : Defn) :
    Option (Except Timeout (List (Coords × Color) × Difficulty × Env)) := do
  let conns ← cs.connections
  let groups0 := cs.constraints_visible.map (fun p => ((({p.1} : Finset Coords)), p.2))
  let groups := BMap.eraseKey groups0 ({UNIQUE_COORDS} : Finset Coords)
  let conns := BMap.eraseKey conns UNIQUE_COORDS
  if groups = [] then some (Except.ok ([], Difficulty.Local 2, env))
  else cgOuter cs conns defn fuel env groups [] 2

/-- The Tier-3 fold over all visible constraints (in reverse order so the
global constraint comes first), with a time check before each merge. -/
def giGo : Env → Multiverse Coords → List (Multiverse Coords) →
    Option (Except Timeout (Multiverse Coords × Env))
  | env, mv, [] => some (Except.ok (mv, env))
  | env, mv, mv2 :: tl =>
    match env.check_timeout with
    | Except.error t => some (Except.error t)
    | Except.ok env => do
      let mv ← Multiverse.intersection mv mv2
      giGo env mv tl

/-- `Constraints::global_invariants` (Tier 3). -/
def Constraints.global_invariants (cs : Constraints) (env : Env) (defn : Defn) :
    Option (Except Timeout (List (Coords × Color) × Env)) := do
  match ← giGo env Multiverse.empty ((cs.constraints_visible.map Prod.snd).reverse) with
  | Except.error t => some (Except.error t)
  | Except.ok (mv, env) => do
    let invariants ← (mv.invariants).foldlM (recordInvariant defn) []
    some (Except.ok (invariants, env))

/-- `solver::Findings`. -/
structure Findings where
  difficulty : Difficulty
  cells : Finset Coords
  deriving DecidableEq

/-- `solver::Outcome`. -/
inductive Outcome where
  | Timeout
  | Unsolvable
  | Solved : List Findings → Outcome
  deriving DecidableEq

/-- The four ways one pass of the `solve` loop body can end: `break` out as
solved, return `Timeout`/`Unsolvable`, or fall through to the next
iteration with updated progress and a recorded finding. -/
inductive StepRes where
  | solved
  | timeout
  | unsolvable
  | next : Progress → Constraints → Findings → Env → StepRes

/-- The body of the `loop` in `solver::solve` (steps 1–6): reveal, narrow,
gc, finish check, then the three invariant tiers, ending either in an
outcome or in the progress update of step 6. -/
def solveStep (fuel : ℕ) (env : Env) (defn : Defn) (progress : Progress) (cs : Constraints) :
    Option StepRes := do
  let visible_cells := progress.blacks ∪ progress.blues
  let cs := cs.reveal visible_cells
  let cs ← cs.narrow visible_cells progress
  let cs ← cs.gc
  if progress.is_solved then
    if cs.is_solved then some StepRes.solved else none
  else if cs.is_solved then none
  else do
    let invariants ← cs.trivial_invariants defn
    if invariants ≠ [] then
      some (StepRes.next (progress.update invariants) cs
        ⟨Difficulty.Local 1, (invariants.map Prod.fst).toFinset⟩ env)
    else do
      match ← cs.compound_invariants fuel env.reset_timer defn with
      | Except.error _ => some StepRes.timeout
      | Except.ok (invariants, difficulty, env) =>
        if invariants ≠ [] then
          some (StepRes.next (progress.update invariants) cs
            ⟨difficulty, (invariants.map Prod.fst).toFinset⟩ env)
        else do
          let difficulty := Difficulty.Global cs.constraints_visible.length
          match ← cs.global_invariants env defn with
          | Except.error _ => some StepRes.timeout
          | Except.ok (invariants, env) =>
            if invariants = [] then some StepRes.unsolvable
            else
              some (StepRes.next (progress.update invariants) cs
                ⟨difficulty, (invariants.map Prod.fst).toFinset⟩ env)

/-- The `loop` of `solver::solve`, driven by fuel: each pass runs
`solveStep` and either stops with an outcome or recurses on the updated
state, recording the step's findings in the history. -/
def solveGo (defn : Defn) :
    ℕ → Env → Progress → Constraints → List Findings → Option Outcome
  | 0, _, _, _, _ => none
  | fuel + 1, env, progress, cs, history => do
    match ← solveStep fuel env defn progress cs with
    | StepRes.solved => some (Outcome.Solved history)
    | StepRes.timeout => some Outcome.Timeout
    | StepRes.unsolvable => some Outcome.Unsolvable
    | StepRes.next progress cs f env => solveGo defn fuel env progress cs (history ++ [f])

/-- `solver::solve`. -/
def solve (fuel : ℕ) (env : Env) (defn : Defn) : Option Outcome := do
  let progress := Progress.of_defn defn
  let cs ← Constraints.of_defn defn
  solveGo defn fuel env progress cs []

/-! ### Helper lemmas: `omapM`, `BMap`, folds -/

theorem omapM_eq_some_iff {β γ : Type} {f : β → Option γ} :
    ∀ {l : List β} {l' : List γ},
      omapM f l = some l' ↔ List.Forall₂ (fun b c => f b = some c) l l' := by
  intro l
  induction l with
  | nil =>
    intro l'
    constructor
    · intro h
      cases h
      exact List.Forall₂.nil
    · intro h
      cases h
      rfl
  | cons b tl ih =>
    intro l'
    constructor
    · intro h
      unfold omapM at h
      cases hb : f b with
      | none => rw [hb] at h; cases h
      | some c =>
        rw [hb] at h
        cases htl : omapM f tl with
        | none => rw [htl] at h; cases h
        | some cs =>
          rw [htl] at h
          cases h
          exact List.Forall₂.cons hb (ih.mp htl)
    · intro h
      cases h with
      | cons hb htl =>
        unfold omapM
        rw [hb, ih.mpr htl]
        rfl

theorem omapM_none_iff {β γ : Type} {f : β → Option γ} {l : List β} :
    omapM f l = none ↔ ∃ b ∈ l, f b = none := by
  induction l with
  | nil => simp [omapM]
  | cons b tl ih =>
    unfold omapM
    cases hb : f b with
    | none => simp [hb]
    | some c =>
      cases htl : omapM f tl with
      | none =>
        rcases ih.mp htl with ⟨x, hx, hfx⟩
        constructor
        · intro _
          exact ⟨x, List.mem_cons_of_mem _ hx, hfx⟩
        · intro _
          simp [hb, htl]
      | some cs =>
        simp only [Option.bind_eq_bind, Option.some_bind]
        constructor
        · intro h
          cases h
        · rintro ⟨x, hx, hfx⟩
          rcases List.mem_cons.mp hx with rfl | hx'
          · rw [hb] at hfx
            cases hfx
          · rw [ih.mpr ⟨x, hx', hfx⟩] at htl
            cases htl

theorem BMap.insert_of_not_mem_keys {κ ν : Type} [DecidableEq κ]
    {m : List (κ × ν)} {k : κ} (v : ν) (h : k ∉ BMap.keys m) :
    BMap.insert m k v = m ++ [(k, v)] := by
  induction m with
  | nil => rfl
  | cons p tl ih =>
    unfold BMap.insert
    have hk : ¬ p.1 = k := by
      intro he
      exact h (by simp [BMap.keys, he])
    rw [if_neg hk, ih (fun hm => h (by simp [BMap.keys] at hm ⊢; exact Or.inr hm))]
    simp

theorem find_eraseP_decomp {β : Type} (p q : β → Bool) :
    ∀ (l : List β) (x : β), l.find? p = some x →
      (∀ y, q y = true → p y = true) → q x = true →
      ∃ l1 l2, l = l1 ++ x :: l2 ∧ l.eraseP q = l1 ++ l2 ∧ ∀ y ∈ l1, p y = false := by
  intro l
  induction l with
  | nil => intro x hf; cases hf
  | cons h tl ih =>
    intro x hf himp hqx
    by_cases hp : p h = true
    · rw [List.find?_cons_of_pos _ hp] at hf
      cases hf
      refine ⟨[], tl, by simp, ?_, by simp⟩
      simp [List.eraseP_cons, hqx]
    · have hp' : p h = false := by simpa using hp
      rw [List.find?_cons_of_neg _ (by simp [hp'])] at hf
      rcases ih x hf himp hqx with ⟨l1, l2, he, her, hl1⟩
      have hqh : q h = false := by
        cases hqh : q h with
        | false => rfl
        | true => exact absurd (himp h hqh) (by simp [hp'])
      refine ⟨h :: l1, l2, by simp [he], ?_, ?_⟩
      · simp [List.eraseP_cons, hqh, her]
      · intro y hy
        rcases List.mem_cons.mp hy with rfl | hy'
        · exact hp'
        · exact hl1 y hy'

/-! ### `n_choose_k`: exact value and overflow characterisation -/

/-- Success condition for `misc::n_choose_k`: no intermediate
`result * fact` exceeds the `u64` range. -/
def nckOk (n k : ℕ) : Prop :=
  ∀ i, i < min (n - k) k → Nat.choose n i * (n - i) ≤ U64MAX

instance (n k : ℕ) : Decidable (nckOk n k) := by
  unfold nckOk; infer_instance

theorem nckGo_eq_some (n : ℕ) :
    ∀ (steps i : ℕ), (∀ j, i ≤ j → j < i + steps → Nat.choose n j * (n - j) ≤ U64MAX) →
      nckGo n (Nat.choose n i) i steps = some (Nat.choose n (i + steps)) := by
  intro steps
  induction steps with
  | zero => intro i _; simp [nckGo]
  | succ st ih =>
    intro i hbound
    have hstep : Nat.choose n i * (n - i) ≤ U64MAX :=
      hbound i le_rfl (by omega)
    have hdiv : Nat.choose n i * (n - i) / (i + 1) = Nat.choose n (i + 1) := by
      rw [← Nat.choose_succ_right_eq n i]
      exact Nat.mul_div_cancel _ (by omega)
    unfold nckGo
    rw [checkedMul, if_pos hstep]
    simp only []
    rw [hdiv]
    have := ih (i + 1) (fun j h1 h2 => hbound j (by omega) (by omega))
    rw [show i + (st + 1) = i + 1 + st from by omega]
    exact this

theorem nckGo_eq_none (n : ℕ) :
    ∀ (steps i : ℕ), (∃ j, i ≤ j ∧ j < i + steps ∧ U64MAX < Nat.choose n j * (n - j)) →
      nckGo n (Nat.choose n i) i steps = none := by
  intro steps
  induction steps with
  | zero =>
    intro i h
    rcases h with ⟨j, h1, h2, _⟩
    omega
  | succ st ih =>
    intro i h
    rcases h with ⟨j, h1, h2, h3⟩
    unfold nckGo
    by_cases hstep : Nat.choose n i * (n - i) ≤ U64MAX
    · have hdiv : Nat.choose n i * (n - i) / (i + 1) = Nat.choose n (i + 1) := by
        rw [← Nat.choose_succ_right_eq n i]
        exact Nat.mul_div_cancel _ (by omega)
      rw [checkedMul, if_pos hstep]
      simp only []
      rw [hdiv]
      have hij : i ≠ j := by
        intro he
        subst he
        omega
      exact ih (i + 1) ⟨j, by omega, by omega, h3⟩
    · rw [checkedMul, if_neg hstep]

theorem n_choose_k_eq (n k : ℕ) (h : k ≤ n) :
    n_choose_k n k = if nckOk n k then some (Nat.choose n k) else none := by
  unfold n_choose_k
  rw [if_neg (by omega)]
  have hm : (if n - k < k then n - k else k) = min (n - k) k := by
    split <;> omega
  rw [hm]
  have h1 : (1 : ℕ) = Nat.choose n 0 := (Nat.choose_zero_right n).symm
  by_cases hok : nckOk n k
  · rw [if_pos hok, h1,
      nckGo_eq_some n (min (n - k) k) 0 (fun j h1 h2 => hok j (by omega))]
    have : Nat.choose n (0 + min (n - k) k) = Nat.choose n k := by
      rcases le_or_lt k (n - k) with hle | hlt
      · rw [show 0 + min (n - k) k = k from by omega]
      · rw [show 0 + min (n - k) k = n - k from by omega]
        exact Nat.choose_symm h
    rw [this]
  · rw [if_neg hok]
    unfold nckOk at hok
    push_neg at hok
    rcases hok with ⟨i, hi, hbig⟩
    rw [h1]
    exact nckGo_eq_none n (min (n - k) k) 0 ⟨i, by omega, by omega, hbig⟩

theorem n_choose_k_of_eq_some {n k v : ℕ} (h : n_choose_k n k = some v) :
    k ≤ n ∧ v = Nat.choose n k ∧ nckOk n k := by
  have hkn : k ≤ n := by
    by_contra hc
    unfold n_choose_k at h
    rw [if_pos (by omega)] at h
    cases h
  rw [n_choose_k_eq n k hkn] at h
  by_cases hok : nckOk n k
  · rw [if_pos hok] at h
    cases h
    exact ⟨hkn, rfl, hok⟩
  · rw [if_neg hok] at h
    cases h

/-- Overflow domination: if the binomial loop for `(n, c)` stays inside the
`u64` range, so does the loop for `(n - 1, c')` when `c'` is `c` or `c - 1`
(the two Pascal neighbours produced by splitting one cell off a group). -/
theorem nckOk_pred {n c c' : ℕ} (hc : c ≤ n) (hc' : c' ≤ n - 1)
    (h1 : c' ≤ c) (h2 : c ≤ c' + 1) (hok : nckOk n c) : nckOk (n - 1) c' := by
  intro i hi
  have hi1 : i < min (n - c) c := by omega
  have hb := hok i hi1
  have hcle : Nat.choose (n - 1) i ≤ Nat.choose n i := Nat.choose_le_choose i (by omega)
  calc Nat.choose (n - 1) i * (n - 1 - i)
      ≤ Nat.choose n i * (n - i) := Nat.mul_le_mul hcle (by omega)
    _ ≤ U64MAX := hb

/-! ### Checked product and sum characterisation -/

/-- All per-group binomial computations of a layout map stay in `u64`. -/
def nckAllOk {α : Type} (bc : List (Finset α × ℕ)) : Prop :=
  ∀ p ∈ bc, nckOk p.1.card p.2

instance {α : Type} (bc : List (Finset α × ℕ)) : Decidable (nckAllOk bc) := by
  unfold nckAllOk; infer_instance

/-- The exact product of per-group binomial coefficients of a layout map. -/
def prodChoose {α : Type} (bc : List (Finset α × ℕ)) : ℕ :=
  (bc.map (fun p => Nat.choose p.1.card p.2)).prod

theorem scExact_eq_prodChoose {α : Type} (lay : Layout α) :
    Layout.scExact lay = prodChoose lay.binomial_coefs := rfl

theorem one_le_prodChoose {α : Type} {bc : List (Finset α × ℕ)}
    (h : ∀ p ∈ bc, p.2 ≤ p.1.card) : 1 ≤ prodChoose bc := by
  induction bc with
  | nil => simp [prodChoose]
  | cons p tl ih =>
    have hp : 0 < Nat.choose p.1.card p.2 := Nat.choose_pos (h p (by simp))
    have ht : 1 ≤ prodChoose tl := ih (fun q hq => h q (by simp [hq]))
    unfold prodChoose at ht ⊢
    simp only [List.map_cons, List.prod_cons]
    exact Nat.one_le_iff_ne_zero.mpr (Nat.mul_ne_zero (by omega) (by omega))

theorem scGo_eq {α : Type} :
    ∀ (bc : List (Finset α × ℕ)), (∀ p ∈ bc, p.2 ≤ p.1.card) →
      ∀ a, a ≤ U64MAX →
        Layout.scGo a bc =
          if nckAllOk bc ∧ a * prodChoose bc ≤ U64MAX then some (a * prodChoose bc)
          else none := by
  intro bc
  induction bc with
  | nil =>
    intro _ a ha
    simp [Layout.scGo, prodChoose, nckAllOk, ha]
  | cons p tl ih =>
    intro hwfc a ha
    have hple : p.2 ≤ p.1.card := hwfc p (by simp)
    unfold Layout.scGo
    by_cases hok : nckOk p.1.card p.2
    · rw [n_choose_k_eq _ _ hple, if_pos hok]
      simp only [Option.some_bind, Option.bind_eq_bind]
      by_cases hmul : a * Nat.choose p.1.card p.2 ≤ U64MAX
      · rw [checkedMul, if_pos hmul]
        simp only []
        rw [ih (fun q hq => hwfc q (by simp [hq])) _ hmul]
        have hassoc : a * Nat.choose p.1.card p.2 * prodChoose tl =
            a * prodChoose (p :: tl) := by
          unfold prodChoose
          simp [List.prod_cons, Nat.mul_assoc]
        by_cases hcond : nckAllOk tl ∧ a * Nat.choose p.1.card p.2 * prodChoose tl ≤ U64MAX
        · rw [if_pos hcond, if_pos, hassoc]
          constructor
          · intro q hq
            rcases List.mem_cons.mp hq with rfl | hq'
            · exact hok
            · exact hcond.1 q hq'
          · rw [← hassoc]
            exact hcond.2
        · rw [if_neg hcond, if_neg]
          intro hc
          refine hcond ⟨fun q hq => hc.1 q (by simp [hq]), ?_⟩
          rw [hassoc]
          exact hc.2
      · rw [checkedMul, if_neg hmul]
        simp only []
        rw [if_neg]
        intro hc
        refine hmul ?_
        calc a * Nat.choose p.1.card p.2
            ≤ a * Nat.choose p.1.card p.2 * prodChoose tl :=
              Nat.le_mul_of_pos_right _
                (one_le_prodChoose (fun q hq => hwfc q (by simp [hq])))
          _ = a * prodChoose (p :: tl) := by
              unfold prodChoose
              simp [List.prod_cons, Nat.mul_assoc]
          _ ≤ U64MAX := hc.2
    · rw [n_choose_k_eq _ _ hple, if_neg hok]
      simp only [Option.none_bind, Option.bind_eq_bind]
      rw [if_neg]
      intro hc
      exact hok (hc.1 p (by simp))

theorem solution_count_eq {α : Type} (lay : Layout α)
    (hwfc : ∀ p ∈ lay.binomial_coefs, p.2 ≤ p.1.card) :
    lay.solution_count =
      if nckAllOk lay.binomial_coefs ∧ Layout.scExact lay ≤ U64MAX
      then some (Layout.scExact lay) else none := by
  unfold Layout.solution_count
  rw [scGo_eq lay.binomial_coefs hwfc 1 (by unfold U64MAX; omega)]
  rw [scExact_eq_prodChoose]
  simp [Nat.one_mul]

theorem scubGo_eq {α : Type} :
    ∀ (ls : List (Layout α)),
      (∀ lay ∈ ls, ∀ p ∈ lay.binomial_coefs, p.2 ≤ p.1.card) →
      ∀ a, a ≤ U64MAX →
        Multiverse.scubGo a ls =
          if (∀ lay ∈ ls, nckAllOk lay.binomial_coefs ∧ Layout.scExact lay ≤ U64MAX) ∧
              a + scExactSum ls ≤ U64MAX
          then some (a + scExactSum ls) else none := by
  intro ls
  induction ls with
  | nil =>
    intro _ a ha
    simp [Multiverse.scubGo, scExactSum, ha]
  | cons lay tl ih =>
    intro hwf a ha
    unfold Multiverse.scubGo
    rw [solution_count_eq lay (hwf lay (by simp))]
    have hsum : scExactSum (lay :: tl) = Layout.scExact lay + scExactSum tl := by
      unfold scExactSum
      simp [List.sum_cons]
    by_cases hok : nckAllOk lay.binomial_coefs ∧ Layout.scExact lay ≤ U64MAX
    · rw [if_pos hok]
      simp only [Option.some_bind, Option.bind_eq_bind]
      by_cases hadd : a + Layout.scExact lay ≤ U64MAX
      · rw [checkedAdd, if_pos hadd]
        simp only []
        rw [ih (fun l hl => hwf l (by simp [hl])) _ hadd]
        by_cases hcond : (∀ l ∈ tl, nckAllOk l.binomial_coefs ∧ Layout.scExact l ≤ U64MAX) ∧
            a + Layout.scExact lay + scExactSum tl ≤ U64MAX
        · rw [if_pos hcond, if_pos, hsum]
          · congr 1
            omega
          constructor
          · intro l hl
            rcases List.mem_cons.mp hl with rfl | hl'
            · exact hok
            · exact hcond.1 l hl'
          · rw [hsum]
            omega
        · rw [if_neg hcond, if_neg]
          intro hc
          refine hcond ⟨fun l hl => hc.1 l (by simp [hl]), ?_⟩
          rw [hsum] at hc
          omega
      · rw [checkedAdd, if_neg hadd]
        simp only []
        rw [if_neg]
        intro hc
        rw [hsum] at hc
        omega
    · rw [if_neg hok]
      simp only [Option.none_bind, Option.bind_eq_bind]
      rw [if_neg]
      intro hc
      exact hok (hc.1 lay (by simp))

theorem bound_eq {α : Type} [DecidableEq α] (mv : Multiverse α) (hwf : mv.WF) :
    mv.solution_count_upper_bound =
      if (∀ lay ∈ mv.layouts, nckAllOk lay.binomial_coefs ∧ Layout.scExact lay ≤ U64MAX) ∧
          scExactSum mv.layouts ≤ U64MAX
      then some (scExactSum mv.layouts) else none := by
  unfold Multiverse.solution_count_upper_bound
  rw [scubGo_eq mv.layouts (fun lay hl p hp => ((hwf lay hl).1.1 p hp).2) 0
    (by unfold U64MAX; omega)]
  simp [Nat.zero_add]

/-! ### List and Finset helpers for the split/align proofs -/

theorem forall₂_mem_left {β γ : Type} {R : β → γ → Prop} :
    ∀ {l : List β} {l' : List γ}, List.Forall₂ R l l' → ∀ {b}, b ∈ l → ∃ c ∈ l', R b c := by
  intro l l' h
  induction h with
  | nil => intro b hb; cases hb
  | cons hR htl ih =>
    intro b hb
    rcases List.mem_cons.mp hb with rfl | hb'
    · exact ⟨_, by simp, hR⟩
    · rcases ih hb' with ⟨c, hc, hRc⟩
      exact ⟨c, by simp [hc], hRc⟩

theorem forall₂_mem_right {β γ : Type} {R : β → γ → Prop} :
    ∀ {l : List β} {l' : List γ}, List.Forall₂ R l l' → ∀ {c}, c ∈ l' → ∃ b ∈ l, R b c := by
  intro l l' h
  induction h with
  | nil => intro c hc; cases hc
  | cons hR htl ih =>
    intro c hc
    rcases List.mem_cons.mp hc with rfl | hc'
    · exact ⟨_, by simp, hR⟩
    · rcases ih hc' with ⟨b, hb, hRb⟩
      exact ⟨b, by simp [hb], hRb⟩

theorem list_sum_filter_eq {p : ℕ → Bool} {g : ℕ → ℕ} :
    ∀ {l : List ℕ}, (∀ i ∈ l, p i = false → g i = 0) →
      ((l.filter p).map g).sum = (l.map g).sum := by
  intro l
  induction l with
  | nil => intro _; rfl
  | cons i tl ih =>
    intro h
    cases hp : p i with
    | true =>
      rw [List.filter_cons_of_pos (by simp [hp])]
      simp only [List.map_cons, List.sum_cons]
      rw [ih (fun j hj hpj => h j (by simp [hj]) hpj)]
    | false =>
      rw [List.filter_cons_of_neg (by simp [hp])]
      simp only [List.map_cons, List.sum_cons]
      rw [ih (fun j hj hpj => h j (by simp [hj]) hpj), h i (by simp) hp]
      omega

theorem list_range_sum (g : ℕ → ℕ) : ∀ (n : ℕ),
    ((List.range n).map g).sum = ∑ i ∈ Finset.range n, g i := by
  intro n
  induction n with
  | zero => simp
  | succ m ih =>
    rw [List.range_succ, Finset.sum_range_succ, List.map_append, List.sum_append, ih]
    simp

theorem vandermonde_range (a b n : ℕ) :
    ∑ i ∈ Finset.range (n + 1), Nat.choose a i * Nat.choose b (n - i) =
      Nat.choose (a + b) n := by
  rw [Nat.add_choose_eq, Finset.Nat.sum_antidiagonal_eq_sum_range_succ_mk]

theorem mem_foldl_union {α : Type} [DecidableEq α] :
    ∀ (l : List (Finset α × ℕ)) (acc : Finset α) (z : α),
      z ∈ l.foldl (fun acc p => acc ∪ p.1) acc ↔ z ∈ acc ∨ ∃ p ∈ l, z ∈ p.1 := by
  intro l
  induction l with
  | nil => intro acc z; simp
  | cons p tl ih =>
    intro acc z
    simp only [List.foldl_cons]
    rw [ih]
    simp only [Finset.mem_union, List.mem_cons]
    constructor
    · rintro ((hz | hz) | ⟨q, hq, hzq⟩)
      · exact Or.inl hz
      · exact Or.inr ⟨p, Or.inl rfl, hz⟩
      · exact Or.inr ⟨q, Or.inr hq, hzq⟩
    · rintro (hz | ⟨q, (rfl | hq), hzq⟩)
      · exact Or.inl (Or.inl hz)
      · exact Or.inl (Or.inr hzq)
      · exact Or.inr ⟨q, hq, hzq⟩

theorem mem_layUnion {α : Type} [DecidableEq α] {lay : Layout α} {z : α} :
    z ∈ Layout.layUnion lay ↔ ∃ p ∈ lay.binomial_coefs, z ∈ p.1 := by
  unfold Layout.layUnion
  rw [mem_foldl_union]
  simp

theorem filter_card_split {α : Type} [DecidableEq α] {s t : Finset α} (hsub : s ⊆ t)
    (f : α → Bool) :
    (t.filter (fun c => f c)).card =
      (s.filter (fun c => f c)).card + ((t \ s).filter (fun c => f c)).card := by
  have hu : s ∪ t \ s = t := Finset.union_sdiff_of_subset hsub
  have hd : Disjoint (s.filter (fun c => f c)) ((t \ s).filter (fun c => f c)) :=
    Finset.disjoint_filter_filter Finset.disjoint_sdiff
  rw [← Finset.card_union_of_disjoint hd, ← Finset.filter_union, hu]

theorem new_eq_some_iff {α : Type} [DecidableEq α] {bc : List (Finset α × ℕ)} {l : Layout α} :
    Layout.new bc = some l ↔ Layout.WFb bc ∧ l = ⟨bc⟩ := by
  unfold Layout.new
  by_cases h : Layout.WFb bc
  · rw [if_pos h]
    constructor
    · intro he; cases he; exact ⟨h, rfl⟩
    · rintro ⟨_, rfl⟩; rfl
  · rw [if_neg h]
    constructor
    · intro he; cases he
    · rintro ⟨hw, _⟩; exact absurd hw h

/-- Splitting a well-formed map at an entry found by `find?` yields, for any
other key of the remainder, disjointness from the found group. -/
theorem wfb_middle_disjoint {α : Type} [DecidableEq α] {bc l1 l2 : List (Finset α × ℕ)}
    {old : Finset α × ℕ} (hwf : Layout.WFb bc) (hdec : bc = l1 ++ old :: l2) :
    ∀ q ∈ l1 ++ l2, Disjoint old.1 q.1 := by
  have hpw : (bc.map Prod.fst).Pairwise (fun a b => Disjoint a b) := hwf.2
  rw [hdec] at hpw
  simp only [List.map_append, List.map_cons] at hpw
  rw [List.pairwise_middle (by intro a b h; exact Disjoint.symm h)] at hpw
  intro q hq
  have := (List.pairwise_cons.mp hpw).1 q.1
  refine this ?_
  rw [← List.map_append]
  exact List.mem_map_of_mem Prod.fst hq

theorem key_not_mem_of_subset {α : Type} [DecidableEq α] {bc l1 l2 : List (Finset α × ℕ)}
    {old : Finset α × ℕ} {k : Finset α} (hwf : Layout.WFb bc) (hdec : bc = l1 ++ old :: l2)
    (hsub : k ⊆ old.1) (hne : k.Nonempty) : k ∉ BMap.keys (l1 ++ l2) := by
  intro hmem
  unfold BMap.keys at hmem
  rcases List.mem_map.mp hmem with ⟨q, hq, hqk⟩
  have hd : Disjoint old.1 q.1 := wfb_middle_disjoint hwf hdec q hq
  rcases hne with ⟨z, hz⟩
  have hz1 : z ∈ old.1 := hsub hz
  have hz2 : z ∈ q.1 := by rw [hqk]; exact hz
  exact Finset.disjoint_left.mp hd hz1 hz2

theorem splitOne_keep_eq {α : Type} [DecidableEq α] {new_key : Finset α} {lay : Layout α}
    {old : Finset α × ℕ}
    (hfind : lay.binomial_coefs.find? (fun p => new_key ⊆ p.1) = some old)
    (hkeep : new_key = old.1) :
    Layout.splitOne new_key lay = some [lay] := by
  unfold Layout.splitOne
  rw [hfind]
  simp only [Option.bind_eq_bind, Option.some_bind]
  rw [if_pos hkeep]

theorem splitOne_else_eq {α : Type} [DecidableEq α] {new_key : Finset α} {lay : Layout α}
    {old : Finset α × ℕ}
    (hfind : lay.binomial_coefs.find? (fun p => new_key ⊆ p.1) = some old)
    (hneq : new_key ≠ old.1) (hne2 : old.1 \ new_key ≠ ∅) :
    Layout.splitOne new_key lay =
      (omapM (fun i => Layout.new
          (BMap.insert (BMap.insert (BMap.eraseKey lay.binomial_coefs old.1) new_key i)
            (old.1 \ new_key) (old.2 - i)))
        ((List.range (old.2 + 1)).filter
          (fun i => i ≤ new_key.card ∧ old.2 - i ≤ (old.1 \ new_key).card))).bind
        (fun forks => if forks = [] then none else some forks) := by
  unfold Layout.splitOne
  rw [hfind]
  simp only [Option.bind_eq_bind, Option.some_bind]
  rw [if_neg hneq, if_neg hne2]

theorem split_insert_shape {α : Type} [DecidableEq α] {bc l1 l2 : List (Finset α × ℕ)}
    {old : Finset α × ℕ} {new_key : Finset α} (hwf : Layout.WFb bc)
    (hdec : bc = l1 ++ old :: l2) (her : BMap.eraseKey bc old.1 = l1 ++ l2)
    (hsub : new_key ⊆ old.1) (hne : new_key.Nonempty) (hne2 : old.1 \ new_key ≠ ∅)
    (i j : ℕ) :
    BMap.insert (BMap.insert (BMap.eraseKey bc old.1) new_key i) (old.1 \ new_key) j =
      (l1 ++ l2) ++ [(new_key, i), (old.1 \ new_key, j)] := by
  have hne2' : (old.1 \ new_key).Nonempty := Finset.nonempty_iff_ne_empty.mpr hne2
  have h1 : new_key ∉ BMap.keys (l1 ++ l2) :=
    key_not_mem_of_subset hwf hdec hsub hne
  have h2 : old.1 \ new_key ∉ BMap.keys (l1 ++ l2) :=
    key_not_mem_of_subset hwf hdec (Finset.sdiff_subset) hne2'
  have hkk : old.1 \ new_key ≠ new_key := by
    intro he
    rcases hne with ⟨z, hz⟩
    have hzz : z ∈ old.1 \ new_key := by rw [he]; exact hz
    exact (Finset.mem_sdiff.mp hzz).2 hz
  rw [her, BMap.insert_of_not_mem_keys i h1, BMap.insert_of_not_mem_keys j ?hfresh]
  · simp
  case hfresh =>
    intro hmem
    unfold BMap.keys at hmem
    rw [List.map_append] at hmem
    rcases List.mem_append.mp hmem with hm | hm
    · exact h2 hm
    · simp only [List.map_cons, List.map_nil, List.mem_singleton] at hm
      exact hkk hm

theorem forall₂_sum_scExact {α : Type} [DecidableEq α] {g : ℕ → List (Finset α × ℕ)} :
    ∀ {cand : List ℕ} {fs : List (Layout α)},
      List.Forall₂ (fun i l => Layout.new (g i) = some l) cand fs →
      (fs.map Layout.scExact).sum = (cand.map (fun i => prodChoose (g i))).sum := by
  intro cand fs h
  induction h with
  | nil => rfl
  | cons hR htl ih =>
    rcases new_eq_some_iff.mp hR with ⟨_, rfl⟩
    simp only [List.map_cons, List.sum_cons, ih]
    rfl

theorem list_sum_mul_left (R : ℕ) (h : ℕ → ℕ) :
    ∀ (l : List ℕ), (l.map (fun i => R * h i)).sum = R * (l.map h).sum := by
  intro l
  induction l with
  | nil => simp
  | cons i tl ih =>
    simp only [List.map_cons, List.sum_cons, ih]
    ring

/-- The core correctness of `Layout::split` on one layout: when it succeeds
on a well-formed layout and a non-empty `new_key`, the forks admit exactly
the colourings the original admitted, their exact solution counts sum to
the original's, and each fork is well-formed with the same coordinate
coverage. -/
theorem splitOne_spec {α : Type} [DecidableEq α] {new_key : Finset α} {lay : Layout α}
    {forks : List (Layout α)} (hwf : Layout.WFb lay.binomial_coefs)
    (hne : new_key.Nonempty) (h : Layout.splitOne new_key lay = some forks) :
    (∀ f, (∃ l ∈ forks, l.admits f) ↔ lay.admits f) ∧
    scExactSum forks = Layout.scExact lay ∧
    (∀ l ∈ forks, Layout.WFb l.binomial_coefs ∧ Layout.layUnion l = Layout.layUnion lay) := by
  cases hfind : lay.binomial_coefs.find? (fun p => new_key ⊆ p.1) with
  | none =>
    unfold Layout.splitOne at h
    rw [hfind] at h
    cases h
  | some old =>
    have hsub : new_key ⊆ old.1 := by
      have := List.find?_some hfind
      exact of_decide_eq_true this
    have hmemold : old ∈ lay.binomial_coefs := List.mem_of_find?_eq_some hfind
    by_cases hkeep : new_key = old.1
    · rw [splitOne_keep_eq hfind hkeep] at h
      cases h
      refine ⟨fun f => ?_, by simp [scExactSum], fun l hl => ?_⟩
      · simp
      · rcases List.mem_singleton.mp hl with rfl
        exact ⟨hwf, rfl⟩
    · -- the forking branch
      by_cases hne2 : old.1 \ new_key = ∅
      · unfold Layout.splitOne at h
        rw [hfind] at h
        simp only [Option.bind_eq_bind, Option.some_bind] at h
        rw [if_neg hkeep, if_pos hne2] at h
        cases h
      · rw [splitOne_else_eq hfind hkeep hne2] at h
        cases homap : omapM (fun i => Layout.new
            (BMap.insert (BMap.insert (BMap.eraseKey lay.binomial_coefs old.1) new_key i)
              (old.1 \ new_key) (old.2 - i)))
          ((List.range (old.2 + 1)).filter
            (fun i => i ≤ new_key.card ∧ old.2 - i ≤ (old.1 \ new_key).card)) with
        | none => rw [homap] at h; cases h
        | some fs =>
          rw [homap] at h
          simp only [Option.bind_eq_bind, Option.some_bind] at h
          by_cases hfs : fs = []
          · rw [if_pos hfs] at h; cases h
          · rw [if_neg hfs] at h
            cases h
            -- decompose the map around the split entry
            rcases find_eraseP_decomp _ _ lay.binomial_coefs old hfind
              (fun y hy => by
                have : y.1 = old.1 := of_decide_eq_true hy
                exact decide_eq_true (this ▸ hsub))
              (decide_eq_true rfl) with ⟨l1, l2, hdec, her, hl1p⟩
            have hF := omapM_eq_some_iff.mp homap
            have hshape : ∀ i j, BMap.insert
                (BMap.insert (BMap.eraseKey lay.binomial_coefs old.1) new_key i)
                (old.1 \ new_key) j =
                (l1 ++ l2) ++ [(new_key, i), (old.1 \ new_key, j)] :=
              fun i j => split_insert_shape hwf hdec her hsub hne hne2 i j
            have hcard : new_key.card + (old.1 \ new_key).card = old.1.card := by
              rw [Finset.card_sdiff hsub]
              have := Finset.card_le_card hsub
              omega
            have hcnt : old.2 ≤ old.1.card := (hwf.1 old hmemold).2
            have hmemc : ∀ {i}, i ∈ (List.range (old.2 + 1)).filter
                (fun i => i ≤ new_key.card ∧ old.2 - i ≤ (old.1 \ new_key).card) ↔
                (i ≤ old.2 ∧ i ≤ new_key.card ∧ old.2 - i ≤ (old.1 \ new_key).card) := by
              intro i
              rw [List.mem_filter, List.mem_range]
              constructor
              · rintro ⟨h1, h2⟩
                have := of_decide_eq_true h2
                exact ⟨by omega, this.1, this.2⟩
              · rintro ⟨h1, h2, h3⟩
                exact ⟨by omega, decide_eq_true (by exact ⟨h2, h3⟩)⟩
            have hmembc : ∀ {q}, q ∈ lay.binomial_coefs ↔ (q ∈ l1 ++ l2 ∨ q = old) := by
              intro q
              rw [hdec]
              simp only [List.mem_append, List.mem_cons]
              tauto
            refine ⟨fun f => ?_, ?_, fun l hl => ?_⟩
            · -- admitted colourings are preserved
              constructor
              · rintro ⟨l, hl, hadm⟩
                rcases forall₂_mem_right hF hl with ⟨i, hi, hnew⟩
                rcases new_eq_some_iff.mp hnew with ⟨_, rfl⟩
                rw [hshape i (old.2 - i)] at hadm
                have hi' := hmemc.mp hi
                intro q hq
                rcases hmembc.mp hq with hq' | hqe
                · exact hadm q (List.mem_append.mpr (Or.inl hq'))
                · have hknk : ((new_key.filter (fun c => f c)).card) = i :=
                    hadm (new_key, i) (by simp)
                  have hknk2 : (((old.1 \ new_key).filter (fun c => f c)).card) = old.2 - i :=
                    hadm (old.1 \ new_key, old.2 - i) (by simp)
                  rw [hqe, filter_card_split hsub, hknk, hknk2]
                  omega
              · intro hadm
                set i0 := (new_key.filter (fun c => f c)).card with hi0
                have hcold : (old.1.filter (fun c => f c)).card = old.2 := hadm old hmemold
                have hsplitc := filter_card_split hsub (fun c => f c) (t := old.1)
                have hle1 : i0 ≤ new_key.card := Finset.card_filter_le _ _
                have hle2 : ((old.1 \ new_key).filter (fun c => f c)).card ≤
                    (old.1 \ new_key).card := Finset.card_filter_le _ _
                have hi0c : i0 ∈ (List.range (old.2 + 1)).filter
                    (fun i => i ≤ new_key.card ∧ old.2 - i ≤ (old.1 \ new_key).card) := by
                  rw [hmemc]
                  refine ⟨by omega, hle1, by omega⟩
                rcases forall₂_mem_left hF hi0c with ⟨l, hl, hnew⟩
                rcases new_eq_some_iff.mp hnew with ⟨_, rfl⟩
                refine ⟨_, hl, ?_⟩
                rw [hshape i0 (old.2 - i0)]
                intro q hq
                rcases List.mem_append.mp hq with hq' | hq'
                · exact hadm q (hmembc.mpr (Or.inl hq'))
                · rcases List.mem_cons.mp hq' with rfl | hq''
                  · exact hi0.symm
                  · rcases List.mem_singleton.mp hq'' with rfl
                    simp only []
                    omega
            · -- exact solution counts are preserved
              unfold scExactSum
              have hsum1 := forall₂_sum_scExact (g := fun i =>
                (l1 ++ l2) ++ [(new_key, i), (old.1 \ new_key, old.2 - i)])
                (by
                  refine hF.imp ?_
                  intro i l hil
                  rw [hshape i (old.2 - i)] at hil
                  exact hil)
              rw [hsum1]
              have hprod : ∀ i, prodChoose ((l1 ++ l2) ++
                  [(new_key, i), (old.1 \ new_key, old.2 - i)]) =
                  prodChoose (l1 ++ l2) *
                    (Nat.choose new_key.card i *
                      Nat.choose (old.1 \ new_key).card (old.2 - i)) := by
                intro i
                unfold prodChoose
                rw [List.map_append, List.prod_append]
                simp [List.prod_cons]
              have : ((List.range (old.2 + 1)).filter
                  (fun i => i ≤ new_key.card ∧ old.2 - i ≤ (old.1 \ new_key).card)).map
                    (fun i => prodChoose ((l1 ++ l2) ++
                      [(new_key, i), (old.1 \ new_key, old.2 - i)])) =
                  ((List.range (old.2 + 1)).filter
                    (fun i => i ≤ new_key.card ∧ old.2 - i ≤ (old.1 \ new_key).card)).map
                    (fun i => prodChoose (l1 ++ l2) *
                      (Nat.choose new_key.card i *
                        Nat.choose (old.1 \ new_key).card (old.2 - i))) := by
                exact List.map_congr_left (fun i _ => hprod i)
              rw [this, list_sum_mul_left]
              rw [list_sum_filter_eq (g := fun i => Nat.choose new_key.card i *
                  Nat.choose (old.1 \ new_key).card (old.2 - i))
                (fun i _ hfalse => ?_), list_range_sum, vandermonde_range, hcard]
              · -- prodChoose lay = prodRest * choose |old| old.2
                rw [scExact_eq_prodChoose, hdec]
                unfold prodChoose
                rw [List.map_append, List.prod_append, List.map_append, List.prod_append]
                simp only [List.map_cons, List.prod_cons]
                ring
              · -- outside the candidate window one of the binomials is zero
                have hfp : ¬(i ≤ new_key.card ∧ old.2 - i ≤ (old.1 \ new_key).card) :=
                  of_decide_eq_false hfalse
                show Nat.choose new_key.card i *
                  Nat.choose (old.1 \ new_key).card (old.2 - i) = 0
                rcases Nat.lt_or_ge new_key.card i with hlt | hge
                · rw [Nat.choose_eq_zero_of_lt hlt]
                  ring
                · have hlt2 : (old.1 \ new_key).card < old.2 - i := by
                    rcases Nat.lt_or_ge (old.1 \ new_key).card (old.2 - i) with h' | h'
                    · exact h'
                    · exact absurd ⟨hge, h'⟩ hfp
                  rw [Nat.choose_eq_zero_of_lt hlt2]
                  ring
            · -- each fork is well-formed and covers the same coordinates
              rcases forall₂_mem_right hF hl with ⟨i, hi, hnew⟩
              rcases new_eq_some_iff.mp hnew with ⟨hwfl, rfl⟩
              refine ⟨hwfl, ?_⟩
              ext z
              rw [mem_layUnion, mem_layUnion, hshape i (old.2 - i)]
              constructor
              · rintro ⟨q, hq, hzq⟩
                rcases List.mem_append.mp hq with hq' | hq'
                · exact ⟨q, hmembc.mpr (Or.inl hq'), hzq⟩
                · rcases List.mem_cons.mp hq' with rfl | hq''
                  · exact ⟨old, hmemold, hsub hzq⟩
                  · rcases List.mem_singleton.mp hq'' with rfl
                    exact ⟨old, hmemold, (Finset.mem_sdiff.mp hzq).1⟩
              · rintro ⟨q, hq, hzq⟩
                rcases hmembc.mp hq with hq' | hqe
                · exact ⟨q, List.mem_append.mpr (Or.inl hq'), hzq⟩
                · rw [hqe] at hzq
                  by_cases hz : z ∈ new_key
                  · exact ⟨(new_key, i), by simp, hz⟩
                  · exact ⟨(old.1 \ new_key, old.2 - i), by simp,
                      Finset.mem_sdiff.mpr ⟨hzq, hz⟩⟩

/-- Correctness of `Layout::split` over a layout list: admitted colourings,
exact counts, well-formedness and coverage are all preserved. -/
theorem split_spec {α : Type} [DecidableEq α] {layouts out : List (Layout α)}
    {new_key U : Finset α}
    (hwf : ∀ lay ∈ layouts, Layout.WFb lay.binomial_coefs ∧ Layout.layUnion lay = U)
    (hne : new_key.Nonempty) (h : Layout.split layouts new_key = some out) :
    (∀ f, (∃ l ∈ out, l.admits f) ↔ (∃ lay ∈ layouts, lay.admits f)) ∧
    scExactSum out = scExactSum layouts ∧
    (∀ l ∈ out, Layout.WFb l.binomial_coefs ∧ Layout.layUnion l = U) := by
  unfold Layout.split at h
  cases homap : omapM (Layout.splitOne new_key) layouts with
  | none => rw [homap] at h; cases h
  | some rss =>
    rw [homap] at h
    simp only [Option.bind_eq_bind, Option.some_bind] at h
    cases h
    have hF := omapM_eq_some_iff.mp homap
    clear homap
    induction hF with
    | nil => exact ⟨fun f => by simp, rfl, fun l hl => by cases hl⟩
    | @cons lay forks tl rest hhd htl ih =>
      have hwfl := hwf lay (by simp)
      have hsp := splitOne_spec hwfl.1 hne hhd
      have ihx := ih (fun l hl => hwf l (by simp [hl]))
      simp only [List.flatten_cons]
      refine ⟨fun f => ?_, ?_, fun l hl => ?_⟩
      · constructor
        · rintro ⟨l, hl, hadm⟩
          rcases List.mem_append.mp hl with hl' | hl'
          · exact ⟨lay, by simp, ((hsp.1 f).mp ⟨l, hl', hadm⟩)⟩
          · rcases (ihx.1 f).mp ⟨l, hl', hadm⟩ with ⟨lay', hlay', hadm'⟩
            exact ⟨lay', by simp [hlay'], hadm'⟩
        · rintro ⟨lay', hlay', hadm'⟩
          rcases List.mem_cons.mp hlay' with rfl | hlay''
          · rcases (hsp.1 f).mpr hadm' with ⟨l, hl, hadm⟩
            exact ⟨l, List.mem_append.mpr (Or.inl hl), hadm⟩
          · rcases (ihx.1 f).mpr ⟨lay', hlay'', hadm'⟩ with ⟨l, hl, hadm⟩
            exact ⟨l, List.mem_append.mpr (Or.inr hl), hadm⟩
      · unfold scExactSum at hsp ihx ⊢
        simp only [List.map_append, List.sum_append, List.map_cons, List.sum_cons]
        rw [hsp.2.1, ihx.2.1]
      · rcases List.mem_append.mp hl with hl' | hl'
        · have := hsp.2.2 l hl'
          exact ⟨this.1, this.2.trans hwfl.2⟩
        · exact ihx.2.2 l hl'

/-- The per-pair step of `align_with_keys` preserves the same invariant. -/
theorem awkStep_spec {α : Type} [DecidableEq α] {res res' : List (Layout α)}
    {lk rk U : Finset α}
    (hwf : ∀ l ∈ res, Layout.WFb l.binomial_coefs ∧ Layout.layUnion l = U)
    (h : Layout.awkStep res lk rk = some res') :
    (∀ f, (∃ l ∈ res', l.admits f) ↔ (∃ l ∈ res, l.admits f)) ∧
    scExactSum res' = scExactSum res ∧
    (∀ l ∈ res', Layout.WFb l.binomial_coefs ∧ Layout.layUnion l = U) := by
  unfold Layout.awkStep at h
  by_cases hd : Disjoint lk rk
  · rw [if_pos hd] at h
    cases h
    exact ⟨fun f => Iff.rfl, rfl, hwf⟩
  · rw [if_neg hd] at h
    by_cases heq : lk = lk ∩ rk
    · rw [if_pos heq] at h
      cases h
      exact ⟨fun f => Iff.rfl, rfl, hwf⟩
    · rw [if_neg heq] at h
      have hne : (lk ∩ rk).Nonempty := Finset.not_disjoint_iff_nonempty_inter.mp hd
      exact split_spec hwf hne h

theorem awkInner_spec {α : Type} [DecidableEq α] {lk U : Finset α} :
    ∀ {rks : List (Finset α)} {res res' : List (Layout α)},
      (∀ l ∈ res, Layout.WFb l.binomial_coefs ∧ Layout.layUnion l = U) →
      Layout.awkInner lk rks res = some res' →
      (∀ f, (∃ l ∈ res', l.admits f) ↔ (∃ l ∈ res, l.admits f)) ∧
      scExactSum res' = scExactSum res ∧
      (∀ l ∈ res', Layout.WFb l.binomial_coefs ∧ Layout.layUnion l = U) := by
  intro rks
  induction rks with
  | nil =>
    intro res res' hwf h
    cases h
    exact ⟨fun f => Iff.rfl, rfl, hwf⟩
  | cons rk rks ih =>
    intro res res' hwf h
    unfold Layout.awkInner at h
    cases hstep : Layout.awkStep res lk rk with
    | none => rw [hstep] at h; cases h
    | some mid =>
      rw [hstep] at h
      simp only [Option.bind_eq_bind, Option.some_bind] at h
      have h1 := awkStep_spec hwf hstep
      have h2 := ih h1.2.2 h
      exact ⟨fun f => (h2.1 f).trans (h1.1 f), h2.2.1.trans h1.2.1, h2.2.2⟩

theorem awkOuter_spec {α : Type} [DecidableEq α] {rks : List (Finset α)} {U : Finset α} :
    ∀ {lks : List (Finset α)} {res res' : List (Layout α)},
      (∀ l ∈ res, Layout.WFb l.binomial_coefs ∧ Layout.layUnion l = U) →
      Layout.awkOuter rks lks res = some res' →
      (∀ f, (∃ l ∈ res', l.admits f) ↔ (∃ l ∈ res, l.admits f)) ∧
      scExactSum res' = scExactSum res ∧
      (∀ l ∈ res', Layout.WFb l.binomial_coefs ∧ Layout.layUnion l = U) := by
  intro lks
  induction lks with
  | nil =>
    intro res res' hwf h
    cases h
    exact ⟨fun f => Iff.rfl, rfl, hwf⟩
  | cons lk lks ih =>
    intro res res' hwf h
    unfold Layout.awkOuter at h
    cases hstep : Layout.awkInner lk rks res with
    | none => rw [hstep] at h; cases h
    | some mid =>
      rw [hstep] at h
      simp only [Option.bind_eq_bind, Option.some_bind] at h
      have h1 := awkInner_spec hwf hstep
      have h2 := ih h1.2.2 h
      exact ⟨fun f => (h2.1 f).trans (h1.1 f), h2.2.1.trans h1.2.1, h2.2.2⟩

/-- `Layout::align_with_keys` preserves the admitted colourings, the exact
solution count and the covered coordinate set of the layout it forks. -/
theorem align_with_keys_spec {α : Type} [DecidableEq α] {self : Layout α}
    {rks : List (Finset α)} {res : List (Layout α)}
    (hwf : Layout.WFb self.binomial_coefs)
    (h : Layout.align_with_keys self rks = some res) :
    (∀ f, (∃ l ∈ res, l.admits f) ↔ self.admits f) ∧
    scExactSum res = Layout.scExact self ∧
    (∀ l ∈ res, Layout.WFb l.binomial_coefs ∧ Layout.layUnion l = Layout.layUnion self) := by
  unfold Layout.align_with_keys at h
  have hbase : ∀ l ∈ [self], Layout.WFb l.binomial_coefs ∧
      Layout.layUnion l = Layout.layUnion self := by
    intro l hl
    rcases List.mem_singleton.mp hl with rfl
    exact ⟨hwf, rfl⟩
  have hsp := awkOuter_spec hbase h
  refine ⟨fun f => (hsp.1 f).trans (by simp), ?_, hsp.2.2⟩
  rw [hsp.2.1]
  unfold scExactSum
  simp

/-- C1 (amended): when `align(A, B)` succeeds on well-formed layouts it
returns `(A', B')` where `A'` admits exactly the colourings `A` admits and
covers the same coordinates, and the per-layout *exact* (unbounded-integer)
solution counts of `A'` sum to the exact solution count of `A`; the same
holds for `B` and `B'`.  (The claim's version with the program's u64-checked
`solution_count` is refuted by `c1_counterexample`: checked overflow can
return `None` for `A` while the forks of `A'` each stay in range.) -/
theorem c1_align_preserves_solutions {α : Type} [LinearOrder α] {A B : Layout α}
    {A' B' : List (Layout α)}
    (hA : Layout.WFb A.binomial_coefs) (hB : Layout.WFb B.binomial_coefs)
    (h : Layout.align A B = some (A', B')) :
    ((∀ f, (∃ l ∈ A', l.admits f) ↔ A.admits f) ∧
      scExactSum A' = Layout.scExact A ∧
      (∀ l ∈ A', Layout.layUnion l = Layout.layUnion A)) ∧
    ((∀ f, (∃ l ∈ B', l.admits f) ↔ B.admits f) ∧
      scExactSum B' = Layout.scExact B ∧
      (∀ l ∈ B', Layout.layUnion l = Layout.layUnion B)) := by
  simp only [Layout.align] at h
  cases hleft : Layout.align_with_keys A (BMap.keys B.binomial_coefs) with
  | none => rw [hleft] at h; cases h
  | some left =>
    rw [hleft] at h
    cases hright : Layout.align_with_keys B (BMap.keys A.binomial_coefs) with
    | none => rw [hright] at h; cases h
    | some right =>
      rw [hright] at h
      simp only [Option.bind_eq_bind, Option.some_bind] at h
      by_cases hal : Layout.are_aligned left right
      · rw [if_pos hal] at h
        cases h
        have hL := align_with_keys_spec hA hleft
        have hR := align_with_keys_spec hB hright
        exact ⟨⟨hL.1, hL.2.1, fun l hl => (hL.2.2 l hl).2⟩,
          ⟨hR.1, hR.2.1, fun l hl => (hR.2.2 l hl).2⟩⟩
      · rw [if_neg hal] at h
        cases h

/-- C1 counterexample: for the well-formed layouts `A = {0..63 ↦ 32}` and
`B = {0..31 ↦ 0}`, `align` succeeds, but the checked-u64 sum of the
per-layout `solution_count`s of `A'` (the fold used by
`solution_count_upper_bound`, and by the assertion commented out in
`Layout::align` itself) differs from `solution_count(A)`:
`n_choose_k(64, 32)` overflows an intermediate product and returns `None`,
while every fork of `A'` stays inside `u64` and the sum is
`Some(C(64, 32))`.  This refutes the claim that the sum of the per-layout
solution counts of `A'` always equals `solution_count(A)`. -/
theorem c1_counterexample :
    Layout.WFb ((⟨[(Finset.range 64, 32)]⟩ : Layout ℕ)).binomial_coefs ∧
    Layout.WFb ((⟨[(Finset.range 32, 0)]⟩ : Layout ℕ)).binomial_coefs ∧
    (Layout.align (⟨[(Finset.range 64, 32)]⟩ : Layout ℕ) ⟨[(Finset.range 32, 0)]⟩).isSome
      = true ∧
    (Layout.align (⟨[(Finset.range 64, 32)]⟩ : Layout ℕ) ⟨[(Finset.range 32, 0)]⟩).map
        (fun P => Multiverse.scubGo 0 P.1) ≠
      some ((⟨[(Finset.range 64, 32)]⟩ : Layout ℕ)).solution_count := by
  refine ⟨by decide, by decide, by decide, by decide⟩

/-- Witness for `c1_align_preserves_solutions`: the hypotheses are satisfied
at the concrete overlapping pair `{0,1} ↦ 1` and `{1,2} ↦ 1`. -/
theorem c1_witness :
    ((∀ f, (∃ l ∈ ((Layout.align (⟨[({0, 1}, 1)]⟩ : Layout ℕ) ⟨[({1, 2}, 1)]⟩).getD
          ([], [])).1, l.admits f) ↔ (⟨[({0, 1}, 1)]⟩ : Layout ℕ).admits f) ∧
      scExactSum ((Layout.align (⟨[({0, 1}, 1)]⟩ : Layout ℕ) ⟨[({1, 2}, 1)]⟩).getD
          ([], [])).1 = Layout.scExact (⟨[({0, 1}, 1)]⟩ : Layout ℕ) ∧
      (∀ l ∈ ((Layout.align (⟨[({0, 1}, 1)]⟩ : Layout ℕ) ⟨[({1, 2}, 1)]⟩).getD
          ([], [])).1, Layout.layUnion l = Layout.layUnion (⟨[({0, 1}, 1)]⟩ : Layout ℕ))) ∧
    ((∀ f, (∃ l ∈ ((Layout.align (⟨[({0, 1}, 1)]⟩ : Layout ℕ) ⟨[({1, 2}, 1)]⟩).getD
          ([], [])).2, l.admits f) ↔ (⟨[({1, 2}, 1)]⟩ : Layout ℕ).admits f) ∧
      scExactSum ((Layout.align (⟨[({0, 1}, 1)]⟩ : Layout ℕ) ⟨[({1, 2}, 1)]⟩).getD
          ([], [])).2 = Layout.scExact (⟨[({1, 2}, 1)]⟩ : Layout ℕ) ∧
      (∀ l ∈ ((Layout.align (⟨[({0, 1}, 1)]⟩ : Layout ℕ) ⟨[({1, 2}, 1)]⟩).getD
          ([], [])).2, Layout.layUnion l = Layout.layUnion (⟨[({1, 2}, 1)]⟩ : Layout ℕ))) :=
  c1_align_preserves_solutions (by decide) (by decide) (by decide)

/-- C3 counterexample: `Multiverse::new` accepts an empty scope with the
non-empty layout list `[Layout {}]` — the layout with no groups has an
empty group-union, so the `assert_eq!(lay_coords, scope)` passes, and no
panic occurs at construction time.  The corruption is only detected later,
by `Multiverse::state`. -/
theorem c3_counterexample :
    (Multiverse.new (∅ : Finset ℕ) [⟨[]⟩]).isSome = true := by decide

/-- C3 (amended): with an empty scope and a non-empty layout list,
`Multiverse::new` panics as soon as some layout covers at least one
coordinate (its group-union is non-empty); a layout list all of whose
layouts have an empty group-union is accepted by `new`, and the corrupt
empty-scope/non-empty-layouts combination is caught by `Multiverse::state`,
which panics (`Corrupted multiverse`). -/
theorem c3_new_empty_scope {α : Type} [DecidableEq α] (scope : Finset α)
    (layouts : List (Layout α)) (hs : scope = ∅) (hne : layouts ≠ []) :
    ((∃ lay ∈ layouts, Layout.layUnion lay ≠ ∅) → Multiverse.new scope layouts = none) ∧
    Multiverse.state ⟨scope, layouts⟩ = none := by
  subst hs
  constructor
  · rintro ⟨lay, hlay, hlu⟩
    unfold Multiverse.new
    rw [if_neg]
    intro hall
    exact hlu (hall lay hlay)
  · unfold Multiverse.state
    rw [decide_eq_true (by rfl : (∅ : Finset α) = ∅), decide_eq_false hne]

/-- Witness for `c3_new_empty_scope` at the concrete layout `{0} ↦ 0`. -/
theorem c3_witness :
    ((∃ lay ∈ [(⟨[({0}, 0)]⟩ : Layout ℕ)], Layout.layUnion lay ≠ ∅) →
      Multiverse.new (∅ : Finset ℕ) [⟨[({0}, 0)]⟩] = none) ∧
    Multiverse.state (⟨∅, [⟨[({0}, 0)]⟩]⟩ : Multiverse ℕ) = none :=
  c3_new_empty_scope ∅ [⟨[({0}, 0)]⟩] rfl (by decide)

/-- C6: `merge` with at least one `Stuck` side (and both states defined)
returns the multiverse with the union scope and the empty layout list,
whose state is again `Stuck`. -/
theorem c6_merge_stuck {α : Type} [LinearOrder α] (M1 M2 : Multiverse α)
    {s1 s2 : MvState} (h1 : M1.state = some s1) (h2 : M2.state = some s2)
    (hs : s1 = MvState.Stuck ∨ s2 = MvState.Stuck) :
    M1.merge M2 = some ⟨M1.scope ∪ M2.scope, []⟩ ∧
    Multiverse.state (⟨M1.scope ∪ M2.scope, []⟩ : Multiverse α) = some MvState.Stuck := by
  have hstate : ∀ (M : Multiverse α) (s : MvState), M.state = some s →
      (s = MvState.Empty ↔ (M.scope = ∅ ∧ M.layouts = [])) ∧
      (s = MvState.Stuck ↔ (M.scope ≠ ∅ ∧ M.layouts = [])) := by
    intro M s hM
    unfold Multiverse.state at hM
    by_cases he : M.scope = ∅ <;> by_cases hl : M.layouts = [] <;>
      simp [he, hl] at hM <;> subst hM <;> simp [he, hl]
  have hnewe : Multiverse.new (M1.scope ∪ M2.scope) ([] : List (Layout α)) =
      some ⟨M1.scope ∪ M2.scope, []⟩ := by
    unfold Multiverse.new
    rw [if_pos (by intro lay hl; cases hl)]
  have hstuck1 : s1 = MvState.Stuck ∨ s2 = MvState.Stuck → True := fun _ => trivial
  unfold Multiverse.merge
  rw [h1, h2]
  simp only [Option.bind_eq_bind, Option.some_bind]
  have hsc : (M1.scope ∪ M2.scope).Nonempty := by
    rcases hs with rfl | rfl
    · rcases Finset.nonempty_iff_ne_empty.mpr ((hstate M1 _ h1).2.mp rfl).1 with ⟨z, hz⟩
      exact ⟨z, Finset.mem_union_left _ hz⟩
    · rcases Finset.nonempty_iff_ne_empty.mpr ((hstate M2 _ h2).2.mp rfl).1 with ⟨z, hz⟩
      exact ⟨z, Finset.mem_union_right _ hz⟩
  have hstres : Multiverse.state (⟨M1.scope ∪ M2.scope, []⟩ : Multiverse α)
      = some MvState.Stuck := by
    unfold Multiverse.state
    rw [decide_eq_false (Finset.nonempty_iff_ne_empty.mp hsc), decide_eq_true (by rfl)]
  refine ⟨?_, hstres⟩
  rcases hs with rfl | rfl
  · have hm1 : M1.scope ≠ ∅ ∧ M1.layouts = [] := (hstate M1 _ h1).2.mp rfl
    cases s2 with
    | Empty =>
      have hm2 : M2.scope = ∅ ∧ M2.layouts = [] := (hstate M2 _ h2).1.mp rfl
      have hM1eq : M1 = (⟨M1.scope ∪ M2.scope, []⟩ : Multiverse α) := by
        rw [hm2.1, Finset.union_empty, ← hm1.2]
      show some M1 = some (⟨M1.scope ∪ M2.scope, []⟩ : Multiverse α)
      rw [← hM1eq]
    | Stuck => exact hnewe
    | Running => exact hnewe
  · have hm2 : M2.scope ≠ ∅ ∧ M2.layouts = [] := (hstate M2 _ h2).2.mp rfl
    cases s1 with
    | Empty =>
      have hm1 : M1.scope = ∅ ∧ M1.layouts = [] := (hstate M1 _ h1).1.mp rfl
      have hM2eq : M2 = (⟨M1.scope ∪ M2.scope, []⟩ : Multiverse α) := by
        rw [hm1.1, Finset.empty_union, ← hm2.2]
      show some M2 = some (⟨M1.scope ∪ M2.scope, []⟩ : Multiverse α)
      rw [← hM2eq]
    | Stuck => exact hnewe
    | Running => exact hnewe

/-- Witness for `c6_merge_stuck`: a Stuck multiverse merged with Empty. -/
theorem c6_witness :
    Multiverse.merge (⟨{0}, []⟩ : Multiverse ℕ) ⟨∅, []⟩ = some ⟨{0} ∪ ∅, []⟩ ∧
    Multiverse.state (⟨({0} : Finset ℕ) ∪ ∅, []⟩ : Multiverse ℕ) = some MvState.Stuck :=
  @c6_merge_stuck ℕ _ (⟨{0}, []⟩ : Multiverse ℕ) ⟨∅, []⟩ MvState.Stuck
    MvState.Empty (by decide) (by decide) (Or.inl rfl)

/-! ### `fsort` and the purge loops of `invariants` -/

theorem fsortGo_mem {α : Type} [LinearOrder α] :
    ∀ (n : ℕ) (s : Finset α), s.card ≤ n → ∀ {c : α}, (c ∈ fsortGo n s ↔ c ∈ s) := by
  intro n
  induction n with
  | zero =>
    intro s hs c
    have : s = ∅ := Finset.card_eq_zero.mp (by omega)
    subst this
    simp [fsortGo]
  | succ m ih =>
    intro s hs c
    unfold fsortGo
    cases hmin : s.min with
    | top =>
      have : s = ∅ := Finset.min_eq_top.mp hmin
      subst this
      simp
    | coe a =>
      have ha : a ∈ s := Finset.mem_of_min hmin
      have hcard : (s.erase a).card ≤ m := by
        rw [Finset.card_erase_of_mem ha]
        have := Finset.card_pos.mpr ⟨a, ha⟩
        omega
      rw [List.mem_cons, ih (s.erase a) hcard, Finset.mem_erase]
      constructor
      · rintro (rfl | ⟨_, hc⟩)
        · exact ha
        · exact hc
      · intro hc
        by_cases hca : c = a
        · exact Or.inl hca
        · exact Or.inr ⟨hca, hc⟩

theorem fsort_mem {α : Type} [LinearOrder α] {s : Finset α} {c : α} :
    c ∈ fsort s ↔ c ∈ s :=
  fsortGo_mem s.card s le_rfl

theorem purgePair_sub {α : Type} [DecidableEq α] (st : Finset α × Finset α)
    (G : Finset α) (k : ℕ) :
    (purgePair st G k).1 ⊆ st.1 ∧ (purgePair st G k).2 ⊆ st.2 := by
  unfold purgePair
  split
  · exact ⟨Finset.sdiff_subset, le_rfl⟩
  · split
    · exact ⟨le_rfl, Finset.sdiff_subset⟩
    · exact ⟨Finset.sdiff_subset, Finset.sdiff_subset⟩

theorem purgeGroups_blue {α : Type} [DecidableEq α] :
    ∀ (gs : List (Finset α × ℕ)) (st : Finset α × Finset α) {c : α},
      c ∈ (purgeGroups st gs).1 →
      c ∈ st.1 ∧ ∀ p ∈ gs, c ∈ p.1 → p.2 = p.1.card := by
  intro gs
  induction gs with
  | nil => intro st c hc; exact ⟨hc, fun p hp => by cases hp⟩
  | cons p tl ih =>
    intro st c hc
    unfold purgeGroups at hc
    by_cases hstop : (purgePair st p.1 p.2).1 = ∅ ∧ (purgePair st p.1 p.2).2 = ∅
    · rw [if_pos hstop] at hc
      rw [hstop.1] at hc
      cases hc
    · rw [if_neg hstop] at hc
      have hrec := ih (purgePair st p.1 p.2) hc
      have hc1 : c ∈ (purgePair st p.1 p.2).1 := hrec.1
      unfold purgePair at hc1
      by_cases h0 : p.2 = 0
      · rw [if_pos h0] at hc1
        rcases Finset.mem_sdiff.mp hc1 with ⟨hcs, hcp⟩
        refine ⟨hcs, fun q hq hcq => ?_⟩
        rcases List.mem_cons.mp hq with rfl | hq'
        · exact absurd hcq hcp
        · exact hrec.2 q hq' hcq
      · rw [if_neg h0] at hc1
        by_cases hfull : p.2 = p.1.card
        · rw [if_pos hfull] at hc1
          refine ⟨hc1, fun q hq hcq => ?_⟩
          rcases List.mem_cons.mp hq with rfl | hq'
          · exact hfull
          · exact hrec.2 q hq' hcq
        · rw [if_neg hfull] at hc1
          rcases Finset.mem_sdiff.mp hc1 with ⟨hcs, hcp⟩
          refine ⟨hcs, fun q hq hcq => ?_⟩
          rcases List.mem_cons.mp hq with rfl | hq'
          · exact absurd hcq hcp
          · exact hrec.2 q hq' hcq

theorem purgeGroups_black {α : Type} [DecidableEq α] :
    ∀ (gs : List (Finset α × ℕ)) (st : Finset α × Finset α) {c : α},
      c ∈ (purgeGroups st gs).2 →
      c ∈ st.2 ∧ ∀ p ∈ gs, c ∈ p.1 → p.2 = 0 := by
  intro gs
  induction gs with
  | nil => intro st c hc; exact ⟨hc, fun p hp => by cases hp⟩
  | cons p tl ih =>
    intro st c hc
    unfold purgeGroups at hc
    by_cases hstop : (purgePair st p.1 p.2).1 = ∅ ∧ (purgePair st p.1 p.2).2 = ∅
    · rw [if_pos hstop] at hc
      rw [hstop.2] at hc
      cases hc
    · rw [if_neg hstop] at hc
      have hrec := ih (purgePair st p.1 p.2) hc
      have hc1 : c ∈ (purgePair st p.1 p.2).2 := hrec.1
      unfold purgePair at hc1
      by_cases h0 : p.2 = 0
      · rw [if_pos h0] at hc1
        refine ⟨hc1, fun q hq hcq => ?_⟩
        rcases List.mem_cons.mp hq with rfl | hq'
        · exact h0
        · exact hrec.2 q hq' hcq
      · rw [if_neg h0] at hc1
        by_cases hfull : p.2 = p.1.card
        · rw [if_pos hfull] at hc1
          rcases Finset.mem_sdiff.mp hc1 with ⟨hcs, hcp⟩
          refine ⟨hcs, fun q hq hcq => ?_⟩
          rcases List.mem_cons.mp hq with rfl | hq'
          · exact absurd hcq hcp
          · exact hrec.2 q hq' hcq
        · rw [if_neg hfull] at hc1
          rcases Finset.mem_sdiff.mp hc1 with ⟨hcs, hcp⟩
          refine ⟨hcs, fun q hq hcq => ?_⟩
          rcases List.mem_cons.mp hq with rfl | hq'
          · exact absurd hcq hcp
          · exact hrec.2 q hq' hcq

theorem purgeLayouts_blue {α : Type} [DecidableEq α] :
    ∀ (ls : List (Layout α)) (st : Finset α × Finset α) {c : α},
      c ∈ (purgeLayouts st ls).1 →
      c ∈ st.1 ∧ ∀ lay ∈ ls, ∀ p ∈ lay.binomial_coefs, c ∈ p.1 → p.2 = p.1.card := by
  intro ls
  induction ls with
  | nil => intro st c hc; exact ⟨hc, fun lay hl => by cases hl⟩
  | cons lay tl ih =>
    intro st c hc
    unfold purgeLayouts at hc
    by_cases hstop : (purgeGroups st lay.binomial_coefs).1 = ∅ ∧
        (purgeGroups st lay.binomial_coefs).2 = ∅
    · rw [if_pos hstop] at hc
      rw [hstop.1] at hc
      cases hc
    · rw [if_neg hstop] at hc
      have hrec := ih (purgeGroups st lay.binomial_coefs) hc
      have h1 := purgeGroups_blue lay.binomial_coefs st hrec.1
      refine ⟨h1.1, fun l hl p hp hcp => ?_⟩
      rcases List.mem_cons.mp hl with rfl | hl'
      · exact h1.2 p hp hcp
      · exact hrec.2 l hl' p hp hcp

theorem purgeLayouts_black {α : Type} [DecidableEq α] :
    ∀ (ls : List (Layout α)) (st : Finset α × Finset α) {c : α},
      c ∈ (purgeLayouts st ls).2 →
      c ∈ st.2 ∧ ∀ lay ∈ ls, ∀ p ∈ lay.binomial_coefs, c ∈ p.1 → p.2 = 0 := by
  intro ls
  induction ls with
  | nil => intro st c hc; exact ⟨hc, fun lay hl => by cases hl⟩
  | cons lay tl ih =>
    intro st c hc
    unfold purgeLayouts at hc
    by_cases hstop : (purgeGroups st lay.binomial_coefs).1 = ∅ ∧
        (purgeGroups st lay.binomial_coefs).2 = ∅
    · rw [if_pos hstop] at hc
      rw [hstop.2] at hc
      cases hc
    · rw [if_neg hstop] at hc
      have hrec := ih (purgeGroups st lay.binomial_coefs) hc
      have h1 := purgeGroups_black lay.binomial_coefs st hrec.1
      refine ⟨h1.1, fun l hl p hp hcp => ?_⟩
      rcases List.mem_cons.mp hl with rfl | hl'
      · exact h1.2 p hp hcp
      · exact hrec.2 l hl' p hp hcp

/-- C2: for a Running well-formed multiverse, `invariants` returns only
coordinates of the scope, and each returned coordinate has the returned
colour in every colouring admitted by any layout of the multiverse. -/
theorem c2_invariants_sound {α : Type} [LinearOrder α] (mv : Multiverse α)
    (hwf : mv.WF) (hrun : mv.state = some MvState.Running) :
    ∀ pr ∈ mv.invariants, pr.1 ∈ mv.scope ∧
      ∀ lay ∈ mv.layouts, ∀ f : α → Bool, lay.admits f →
        ((pr.2 = Color.Blue → f pr.1 = true) ∧ (pr.2 = Color.Black → f pr.1 = false)) := by
  intro pr hpr
  unfold Multiverse.invariants at hpr
  rcases List.mem_map.mp hpr with ⟨c, hcmem, hceq⟩
  have hcu : c ∈ (purgeLayouts (mv.scope, mv.scope) mv.layouts).1 ∪
      (purgeLayouts (mv.scope, mv.scope) mv.layouts).2 := fsort_mem.mp hcmem
  subst hceq
  by_cases hblack : c ∈ (purgeLayouts (mv.scope, mv.scope) mv.layouts).2
  · have hb := purgeLayouts_black mv.layouts (mv.scope, mv.scope) hblack
    refine ⟨hb.1, fun lay hlay f hadm => ?_⟩
    simp only [if_pos hblack]
    refine ⟨fun hcol => Color.noConfusion hcol, fun _ => ?_⟩
    have hcov : c ∈ Layout.layUnion lay := ((hwf lay hlay).2).symm ▸ hb.1
    rcases mem_layUnion.mp hcov with ⟨p, hp, hcp⟩
    have hk0 : p.2 = 0 := hb.2 lay hlay p hp hcp
    have hcount := hadm p hp
    rw [hk0] at hcount
    have : p.1.filter (fun x => f x) = ∅ := Finset.card_eq_zero.mp hcount
    by_cases hfc : f c = true
    · exact absurd (this ▸ Finset.mem_filter.mpr ⟨hcp, hfc⟩) (by simp)
    · simpa using hfc
  · have hcb : c ∈ (purgeLayouts (mv.scope, mv.scope) mv.layouts).1 := by
      rcases Finset.mem_union.mp hcu with h | h
      · exact h
      · exact absurd h hblack
    have hb := purgeLayouts_blue mv.layouts (mv.scope, mv.scope) hcb
    refine ⟨hb.1, fun lay hlay f hadm => ?_⟩
    simp only [if_neg hblack]
    refine ⟨fun _ => ?_, fun hcol => Color.noConfusion hcol⟩
    have hcov : c ∈ Layout.layUnion lay := ((hwf lay hlay).2).symm ▸ hb.1
    rcases mem_layUnion.mp hcov with ⟨p, hp, hcp⟩
    have hkfull : p.2 = p.1.card := hb.2 lay hlay p hp hcp
    have hcount := hadm p hp
    rw [hkfull] at hcount
    have hsubf : p.1.filter (fun x => f x) = p.1 :=
      Finset.eq_of_subset_of_card_le (Finset.filter_subset _ _) (le_of_eq hcount.symm)
    have : c ∈ p.1.filter (fun x => f x) := hsubf.symm ▸ hcp
    exact (Finset.mem_filter.mp this).2

/-- Witness for `c2_invariants_sound` on a Running multiverse with one
layout `{0} ↦ 1, {1} ↦ 0`. -/
theorem c2_witness :
    (0, Color.Blue) ∈ (⟨{0, 1}, [⟨[({0}, 1), ({1}, 0)]⟩]⟩ : Multiverse ℕ).invariants ∧
    ((0, Color.Blue).1 ∈ (⟨{0, 1}, [⟨[({0}, 1), ({1}, 0)]⟩]⟩ : Multiverse ℕ).scope ∧
      ∀ lay ∈ (⟨{0, 1}, [⟨[({0}, 1), ({1}, 0)]⟩]⟩ : Multiverse ℕ).layouts,
        ∀ f : ℕ → Bool, lay.admits f →
        (((0, Color.Blue).2 = Color.Blue → f (0, Color.Blue).1 = true) ∧
         ((0, Color.Blue).2 = Color.Black → f (0, Color.Blue).1 = false))) :=
  ⟨by decide, c2_invariants_sound (⟨{0, 1}, [⟨[({0}, 1), ({1}, 0)]⟩]⟩ : Multiverse ℕ)
    (by decide) (by decide) (0, Color.Blue) (by decide)⟩

/-- C9: on a Stuck multiverse (non-empty scope, no layouts) `invariants` is
total and maps every coordinate of the scope to Black: with no layouts the
purge loops never run, both candidate sets stay equal to the scope, and the
Black insertion pass overwrites the Blue one. -/
theorem c9_invariants_stuck {α : Type} [LinearOrder α] (mv : Multiverse α)
    (hs : mv.state = some MvState.Stuck) :
    mv.invariants = (fsort mv.scope).map (fun c => (c, Color.Black)) := by
  have hlay : mv.layouts = [] := by
    unfold Multiverse.state at hs
    by_cases he : mv.scope = ∅ <;> by_cases hl : mv.layouts = [] <;>
      simp [he, hl] at hs <;> first | exact hl | cases hs
  unfold Multiverse.invariants
  rw [hlay]
  show ((fsort ((purgeLayouts (mv.scope, mv.scope) []).1 ∪
      (purgeLayouts (mv.scope, mv.scope) []).2)).map _) = _
  unfold purgeLayouts
  simp only [Finset.union_self]
  refine List.map_congr_left ?_
  intro c hc
  have : c ∈ mv.scope := fsort_mem.mp hc
  simp [this]

/-- Witness for `c9_invariants_stuck` at the Stuck multiverse with scope
`{0, 1}`. -/
theorem c9_witness :
    (⟨{0, 1}, []⟩ : Multiverse ℕ).invariants =
      (fsort ({0, 1} : Finset ℕ)).map (fun c => (c, Color.Black)) :=
  c9_invariants_stuck (⟨{0, 1}, []⟩ : Multiverse ℕ) (by decide)

/-! ### Lookup and erase facts for `learn` -/

theorem lookup_of_decomp {κ ν : Type} [DecidableEq κ] {l1 l2 : List (κ × ν)} {k : κ} {v : ν}
    (hl1 : ∀ y ∈ l1, y.1 ≠ k) :
    BMap.lookup (l1 ++ (k, v) :: l2) k = some v := by
  induction l1 with
  | nil =>
    unfold BMap.lookup
    rw [List.nil_append, List.find?_cons_of_pos _ (by simp)]
    rfl
  | cons y tl ih =>
    unfold BMap.lookup at ih ⊢
    rw [List.cons_append, List.find?_cons_of_neg _ (by simp [hl1 y (by simp)])]
    exact ih (fun z hz => hl1 z (by simp [hz]))

theorem lookup_some_decomp {κ ν : Type} [DecidableEq κ] {m : List (κ × ν)} {k : κ} {v : ν}
    (h : BMap.lookup m k = some v) :
    ∃ l1 l2, m = l1 ++ (k, v) :: l2 ∧ BMap.eraseKey m k = l1 ++ l2 ∧
      ∀ y ∈ l1, y.1 ≠ k := by
  unfold BMap.lookup at h
  cases hfind : m.find? (fun p => p.1 = k) with
  | none => rw [hfind] at h; cases h
  | some x =>
    rw [hfind] at h
    have hx2 : x.2 = v := by
      cases h
      rfl
    have hx1p := List.find?_some hfind
    have hx1 : x.1 = k := of_decide_eq_true hx1p
    rcases find_eraseP_decomp (fun p => decide (p.1 = k)) (fun p => decide (p.1 = k)) m x hfind
      (fun y hy => hy) (decide_eq_true hx1) with ⟨l1, l2, hdec, her, hl1⟩
    refine ⟨l1, l2, ?_, her, fun y hy => of_decide_eq_false (hl1 y hy)⟩
    rw [hdec]
    congr 1
    rw [← hx1, ← hx2]

theorem wfb_erase_of_decomp {α : Type} [DecidableEq α] {l1 l2 : List (Finset α × ℕ)}
    {x : Finset α × ℕ} (hwf : Layout.WFb (l1 ++ x :: l2)) : Layout.WFb (l1 ++ l2) := by
  constructor
  · intro p hp
    refine hwf.1 p ?_
    rcases List.mem_append.mp hp with h | h
    · exact List.mem_append.mpr (Or.inl h)
    · exact List.mem_append.mpr (Or.inr (by simp [h]))
  · have hsub : List.Sublist ((l1 ++ l2).map Prod.fst) ((l1 ++ x :: l2).map Prod.fst) := by
      refine List.Sublist.map Prod.fst ?_
      exact List.Sublist.append_left (List.sublist_cons_self x l2) l1
    exact hwf.2.sublist hsub

/-- For a well-formed layout with the singleton group `{c} ↦ i`, removing
that group keeps well-formedness, removes exactly `c` from the coverage,
and (since `C(1, i) = 1` for `i ≤ 1`) keeps the exact solution count. -/
theorem singleton_group_facts {α : Type} [DecidableEq α] {l : Layout α} {c : α} {i : ℕ}
    (hwfl : Layout.WFb l.binomial_coefs)
    (hlk : BMap.lookup l.binomial_coefs ({c} : Finset α) = some i) (hi : i ≤ 1) :
    Layout.WFb (BMap.eraseKey l.binomial_coefs {c}) ∧
    Layout.layUnion (⟨BMap.eraseKey l.binomial_coefs {c}⟩ : Layout α) =
      Layout.layUnion l \ {c} ∧
    Layout.scExact (⟨BMap.eraseKey l.binomial_coefs {c}⟩ : Layout α) = Layout.scExact l ∧
    (nckAllOk l.binomial_coefs → nckAllOk (BMap.eraseKey l.binomial_coefs {c})) := by
  rcases lookup_some_decomp hlk with ⟨l1, l2, hdec, her, hl1⟩
  have hwfe : Layout.WFb (l1 ++ l2) := wfb_erase_of_decomp (hdec ▸ hwfl)
  have hdisj : ∀ q ∈ l1 ++ l2, Disjoint ({c} : Finset α) q.1 := by
    intro q hq
    exact @wfb_middle_disjoint α _ l.binomial_coefs l1 l2 (({c} : Finset α), i)
      hwfl hdec q hq
  rw [her]
  refine ⟨hwfe, ?_, ?_, ?_⟩
  · ext z
    rw [mem_layUnion, Finset.mem_sdiff, mem_layUnion]
    constructor
    · rintro ⟨p, hp, hzp⟩
      refine ⟨⟨p, hdec ▸ List.mem_append.mpr ?_, hzp⟩, ?_⟩
      · rcases List.mem_append.mp hp with h | h
        · exact Or.inl h
        · exact Or.inr (by simp [h])
      · intro hzc
        have := Finset.disjoint_left.mp (hdisj p hp) hzc
        exact this hzp
    · rintro ⟨⟨p, hp, hzp⟩, hzc⟩
      have hp' : p ∈ l1 ++ (({c} : Finset α), i) :: l2 := hdec ▸ hp
      rcases List.mem_append.mp hp' with h | h
      · exact ⟨p, List.mem_append.mpr (Or.inl h), hzp⟩
      · rcases List.mem_cons.mp h with rfl | h'
        · exact absurd (by simpa using hzp) hzc
        · exact ⟨p, List.mem_append.mpr (Or.inr h'), hzp⟩
  · rw [scExact_eq_prodChoose, scExact_eq_prodChoose, hdec]
    unfold prodChoose
    rw [List.map_append, List.prod_append, List.map_append, List.prod_append]
    simp only [List.map_cons, List.prod_cons, Finset.card_singleton]
    have hch : Nat.choose 1 i = 1 := by
      interval_cases i <;> rfl
    rw [hch]
    ring
  · intro hok p hp
    refine hok p (hdec ▸ List.mem_append.mpr ?_)
    rcases List.mem_append.mp hp with h | h
    · exact Or.inl h
    · exact Or.inr (by simp [h])

theorem omapM_eq_map {β γ : Type} {f : β → Option γ} {g : β → γ} :
    ∀ {l : List β}, (∀ b ∈ l, f b = some (g b)) → omapM f l = some (l.map g) := by
  intro l
  induction l with
  | nil => intro _; rfl
  | cons b tl ih =>
    intro h
    unfold omapM
    rw [h b (by simp), ih (fun x hx => h x (by simp [hx]))]
    rfl

/-- `Layout::split` at the singleton `{c}` never panics on a well-formed
layout covering `c`, and every fork carries `{c}` as a group with a blue
count of at most one; the per-group binomial computations stay in `u64` if
the original layout's did. -/
theorem splitOne_singleton {α : Type} [DecidableEq α] {lay : Layout α} {c : α}
    (hwf : Layout.WFb lay.binomial_coefs) (hc : c ∈ Layout.layUnion lay) :
    ∃ forks, Layout.splitOne ({c} : Finset α) lay = some forks ∧
      ∀ l ∈ forks, ∃ i, i ≤ 1 ∧ BMap.lookup l.binomial_coefs ({c} : Finset α) = some i ∧
        (nckAllOk lay.binomial_coefs → nckAllOk l.binomial_coefs) := by
  have hfindS : (lay.binomial_coefs.find? (fun p => ({c} : Finset α) ⊆ p.1)).isSome := by
    rcases mem_layUnion.mp hc with ⟨p, hp, hcp⟩
    exact List.find?_isSome.mpr ⟨p, hp, decide_eq_true (Finset.singleton_subset_iff.mpr hcp)⟩
  rcases Option.isSome_iff_exists.mp hfindS with ⟨old, hfind⟩
  have hsubp := List.find?_some hfind
  have hsub : ({c} : Finset α) ⊆ old.1 := of_decide_eq_true hsubp
  have hmemold : old ∈ lay.binomial_coefs := List.mem_of_find?_eq_some hfind
  have hcnt : old.2 ≤ old.1.card := (hwf.1 old hmemold).2
  rcases find_eraseP_decomp _ _ lay.binomial_coefs old hfind
    (fun y hy => by
      have : y.1 = old.1 := of_decide_eq_true hy
      exact decide_eq_true (this ▸ hsub))
    (decide_eq_true rfl) with ⟨l1, l2, hdec, her, hl1p⟩
  by_cases hkeep : ({c} : Finset α) = old.1
  · refine ⟨[lay], splitOne_keep_eq hfind hkeep, ?_⟩
    intro l hl
    rcases List.mem_singleton.mp hl with rfl
    refine ⟨old.2, ?_, ?_, fun hok => hok⟩
    · rw [← Finset.card_singleton c, hkeep]
      exact hcnt
    · have hdec' : l.binomial_coefs = l1 ++ (({c} : Finset α), old.2) :: l2 := by
        rw [hdec]
        congr 1
        rw [hkeep]
      rw [hdec']
      refine lookup_of_decomp ?_
      intro y hy he
      have hthis := hl1p y hy
      rw [he] at hthis
      simp at hthis
  · have hne2 : old.1 \ ({c} : Finset α) ≠ ∅ := by
      intro hempty
      exact hkeep (le_antisymm hsub (Finset.sdiff_eq_empty_iff_subset.mp hempty))
    have hshape := fun i j => split_insert_shape hwf hdec her hsub
      (Finset.singleton_nonempty c) hne2 i j
    have hcard2 : (old.1 \ ({c} : Finset α)).card = old.1.card - 1 := by
      rw [Finset.card_sdiff hsub, Finset.card_singleton]
    have hcardpos : 1 ≤ old.1.card := by
      have := Finset.card_le_card hsub
      simpa using this
    have hwfe : Layout.WFb (l1 ++ l2) := wfb_erase_of_decomp (hdec ▸ hwf)
    have hdisjmid : ∀ q ∈ l1 ++ l2, Disjoint old.1 q.1 :=
      fun q hq => wfb_middle_disjoint hwf hdec q hq
    have hwfi : ∀ i ∈ (List.range (old.2 + 1)).filter
        (fun i => i ≤ (({c} : Finset α)).card ∧
          old.2 - i ≤ (old.1 \ ({c} : Finset α)).card),
        Layout.WFb ((l1 ++ l2) ++
          [((({c} : Finset α)), i), (old.1 \ ({c} : Finset α), old.2 - i)]) := by
      intro i hi
      have hi' : i ≤ 1 ∧ old.2 - i ≤ (old.1 \ ({c} : Finset α)).card := by
        have := of_decide_eq_true (List.mem_filter.mp hi).2
        simpa using this
      constructor
      · intro p hp
        rcases List.mem_append.mp hp with hp' | hp'
        · exact hwfe.1 p hp'
        · rcases List.mem_cons.mp hp' with rfl | hp''
          · exact ⟨Finset.singleton_nonempty c, by simpa using hi'.1⟩
          · rcases List.mem_singleton.mp hp'' with rfl
            exact ⟨Finset.nonempty_iff_ne_empty.mpr hne2, hi'.2⟩
      · rw [List.map_append]
        refine List.pairwise_append.mpr ⟨hwfe.2, ?_, ?_⟩
        · refine List.pairwise_cons.mpr ⟨?_, by simp⟩
          intro b hb
          rcases List.mem_singleton.mp (by simpa using hb) with rfl
          exact Finset.sdiff_disjoint.symm
        · intro a ha b hb
          rcases List.mem_map.mp ha with ⟨q, hq, rfl⟩
          have hdq : Disjoint q.1 old.1 := (hdisjmid q hq).symm
          have hb2 : b = ({c} : Finset α) ∨ b = old.1 \ ({c} : Finset α) := by
            simpa using hb
          rcases hb2 with rfl | rfl
          · exact hdq.mono_right hsub
          · exact hdq.mono_right Finset.sdiff_subset
    have homap := omapM_eq_map (f := fun i => Layout.new
        (BMap.insert (BMap.insert (BMap.eraseKey lay.binomial_coefs old.1)
          ({c} : Finset α) i) (old.1 \ ({c} : Finset α)) (old.2 - i)))
      (g := fun i => (⟨(l1 ++ l2) ++
        [((({c} : Finset α)), i), (old.1 \ ({c} : Finset α), old.2 - i)]⟩ : Layout α))
      (l := (List.range (old.2 + 1)).filter
        (fun i => i ≤ (({c} : Finset α)).card ∧
          old.2 - i ≤ (old.1 \ ({c} : Finset α)).card))
      (fun i hi => by
        show Layout.new (BMap.insert (BMap.insert (BMap.eraseKey lay.binomial_coefs old.1)
          ({c} : Finset α) i) (old.1 \ ({c} : Finset α)) (old.2 - i)) =
          some (⟨(l1 ++ l2) ++ [((({c} : Finset α)), i),
            (old.1 \ ({c} : Finset α), old.2 - i)]⟩ : Layout α)
        rw [hshape i (old.2 - i)]
        exact new_eq_some_iff.mpr ⟨hwfi i hi, rfl⟩)
    have hmemc : min old.2 1 ∈ (List.range (old.2 + 1)).filter
        (fun i => i ≤ (({c} : Finset α)).card ∧
          old.2 - i ≤ (old.1 \ ({c} : Finset α)).card) := by
      rw [List.mem_filter, List.mem_range]
      refine ⟨by omega, decide_eq_true ?_⟩
      rw [Finset.card_singleton, hcard2]
      omega
    have hnonnil : ((List.range (old.2 + 1)).filter
        (fun i => i ≤ (({c} : Finset α)).card ∧
          old.2 - i ≤ (old.1 \ ({c} : Finset α)).card)).map
        (fun i => (⟨(l1 ++ l2) ++
          [((({c} : Finset α)), i), (old.1 \ ({c} : Finset α), old.2 - i)]⟩ : Layout α)) ≠
        [] := by
      intro hnil
      rw [List.map_eq_nil_iff] at hnil
      rw [hnil] at hmemc
      cases hmemc
    refine ⟨((List.range (old.2 + 1)).filter
        (fun i => i ≤ (({c} : Finset α)).card ∧
          old.2 - i ≤ (old.1 \ ({c} : Finset α)).card)).map
        (fun i => (⟨(l1 ++ l2) ++ [((({c} : Finset α)), i),
          (old.1 \ ({c} : Finset α), old.2 - i)]⟩ : Layout α)), ?_, ?_⟩
    · rw [splitOne_else_eq hfind hkeep hne2, homap]
      simp only [Option.bind_eq_bind, Option.some_bind]
      rw [if_neg hnonnil]
    · intro l hl
      rcases List.mem_map.mp hl with ⟨i, hi, rfl⟩
      have hi' : i ≤ 1 ∧ old.2 - i ≤ (old.1 \ ({c} : Finset α)).card := by
        have := of_decide_eq_true (List.mem_filter.mp hi).2
        simpa using this
      have hirange : i ≤ old.2 := by
        have := (List.mem_filter.mp hi).1
        rw [List.mem_range] at this
        omega
      refine ⟨i, hi'.1, ?_, ?_⟩
      · show BMap.lookup ((l1 ++ l2) ++
          ((({c} : Finset α)), i) :: [(old.1 \ ({c} : Finset α), old.2 - i)]) {c} = some i
        refine lookup_of_decomp ?_
        intro y hy he
        exact key_not_mem_of_subset hwf hdec hsub (Finset.singleton_nonempty c)
          (he ▸ List.mem_map_of_mem Prod.fst hy)
      · intro hok p hp
        rcases List.mem_append.mp hp with hp' | hp'
        · refine hok p ?_
          rw [hdec]
          rcases List.mem_append.mp hp' with h1 | h1
          · exact List.mem_append.mpr (Or.inl h1)
          · exact List.mem_append.mpr (Or.inr (by simp [h1]))
        · rcases List.mem_cons.mp hp' with rfl | hp''
          · intro j hj
            simp only [Finset.card_singleton] at hj
            omega
          · rcases List.mem_singleton.mp hp'' with rfl
            have hokold : nckOk old.1.card old.2 := hok old hmemold
            have := @nckOk_pred old.1.card old.2 (old.2 - i) hcnt
              (by omega) (by omega) (by omega) hokold
            simpa [hcard2] using this

/-- `Layout::split` at `{c}` over the layout list of a well-formed
multiverse: it succeeds, preserves admitted colourings and exact counts,
and every output layout carries `{c}` as a group with blue count at most
one, stays within the original's overflow budget, and has exact count
bounded by some input layout's. -/
theorem split_singleton {α : Type} [DecidableEq α] {ls : List (Layout α)} {c : α}
    {U : Finset α}
    (hwf : ∀ lay ∈ ls, Layout.WFb lay.binomial_coefs ∧ Layout.layUnion lay = U)
    (hc : c ∈ U) :
    ∃ S, Layout.split ls ({c} : Finset α) = some S ∧
      (∀ f, (∃ l ∈ S, l.admits f) ↔ (∃ lay ∈ ls, lay.admits f)) ∧
      scExactSum S = scExactSum ls ∧
      (∀ l ∈ S, Layout.WFb l.binomial_coefs ∧ Layout.layUnion l = U ∧
        (∃ i, i ≤ 1 ∧ BMap.lookup l.binomial_coefs ({c} : Finset α) = some i) ∧
        ((∀ lay ∈ ls, nckAllOk lay.binomial_coefs) → nckAllOk l.binomial_coefs) ∧
        (∃ lay ∈ ls, Layout.scExact l ≤ Layout.scExact lay)) := by
  have hone : ∀ lay ∈ ls, (Layout.splitOne ({c} : Finset α) lay).isSome := by
    intro lay hlay
    rcases splitOne_singleton (hwf lay hlay).1 (by rw [(hwf lay hlay).2]; exact hc) with
      ⟨forks, hsome, _⟩
    rw [hsome]
    rfl
  have homapS : (omapM (Layout.splitOne ({c} : Finset α)) ls).isSome := by
    cases homap : omapM (Layout.splitOne ({c} : Finset α)) ls with
    | none =>
      rcases omapM_none_iff.mp homap with ⟨lay, hlay, hnone⟩
      have h1 := hone lay hlay
      rw [hnone] at h1
      cases h1
    | some _ => rfl
  rcases Option.isSome_iff_exists.mp homapS with ⟨rss, homap⟩
  have hsplit : Layout.split ls ({c} : Finset α) = some rss.flatten := by
    unfold Layout.split
    rw [homap]
    rfl
  have hspec := split_spec hwf (Finset.singleton_nonempty c) hsplit
  have hF := omapM_eq_some_iff.mp homap
  refine ⟨rss.flatten, hsplit, hspec.1, hspec.2.1, ?_⟩
  intro l hl
  rcases List.mem_flatten.mp hl with ⟨forks, hforks, hlf⟩
  rcases forall₂_mem_right hF hforks with ⟨lay, hlay, hone'⟩
  rcases splitOne_singleton (hwf lay hlay).1 (by rw [(hwf lay hlay).2]; exact hc) with
    ⟨forks2, hsome2, hprops⟩
  have hfe : forks2 = forks := by
    rw [hone'] at hsome2
    cases hsome2
    rfl
  subst hfe
  rcases hprops l hlf with ⟨i, hi, hlk, hok⟩
  have hsums := splitOne_spec (hwf lay hlay).1 (Finset.singleton_nonempty c) hone'
  refine ⟨(hspec.2.2 l hl).1, (hspec.2.2 l hl).2, ⟨i, hi, hlk⟩,
    fun hall => hok (hall lay hlay), ⟨lay, hlay, ?_⟩⟩
  rw [← hsums.2.1]
  unfold scExactSum
  exact List.single_le_sum (fun x _ => Nat.zero_le x) _ (List.mem_map_of_mem Layout.scExact hlf)

theorem learnStep_eq {α : Type} [DecidableEq α] {l : Layout α} {c : α} {i : ℕ} (col : Color)
    (hwfl : Layout.WFb l.binomial_coefs)
    (hlk : BMap.lookup l.binomial_coefs ({c} : Finset α) = some i) (hi : i ≤ 1) :
    learnStep ({c} : Finset α) col l =
      some (match BMap.lookup l.binomial_coefs ({c} : Finset α) with
        | some 1 => if col = Color.Blue then
            some (⟨BMap.eraseKey l.binomial_coefs ({c} : Finset α)⟩ : Layout α) else none
        | some 0 => if col = Color.Black then
            some (⟨BMap.eraseKey l.binomial_coefs ({c} : Finset α)⟩ : Layout α) else none
        | _ => none) := by
  have hwfe : Layout.WFb (BMap.eraseKey l.binomial_coefs ({c} : Finset α)) :=
    (singleton_group_facts hwfl hlk hi).1
  have hnewe : Layout.new (BMap.eraseKey l.binomial_coefs ({c} : Finset α)) =
      some ⟨BMap.eraseKey l.binomial_coefs ({c} : Finset α)⟩ :=
    new_eq_some_iff.mpr ⟨hwfe, rfl⟩
  unfold learnStep
  rw [hlk]
  interval_cases i
  · cases col
    · simp [hnewe]
    · simp
  · cases col
    · simp
    · simp [hnewe]

/-- Full characterisation of `Multiverse::learn` away from the singleton
scope: the split succeeds, no panic occurs, the result's scope is
`scope \ {c}` (as `erase`), and its layouts are the split layouts filtered
by agreement with the learned colour and stripped of the `{c}` group. -/
theorem learn_result {α : Type} [DecidableEq α] {mv : Multiverse α} {c : α} (col : Color)
    (hwf : mv.WF) (hc : c ∈ mv.scope) (hnescope : mv.scope ≠ ({c} : Finset α)) :
    ∃ S, Layout.split mv.layouts ({c} : Finset α) = some S ∧
      (∀ f, (∃ l ∈ S, l.admits f) ↔ (∃ lay ∈ mv.layouts, lay.admits f)) ∧
      scExactSum S = scExactSum mv.layouts ∧
      (∀ l ∈ S, Layout.WFb l.binomial_coefs ∧ Layout.layUnion l = mv.scope ∧
        (∃ i, i ≤ 1 ∧ BMap.lookup l.binomial_coefs ({c} : Finset α) = some i) ∧
        ((∀ lay ∈ mv.layouts, nckAllOk lay.binomial_coefs) → nckAllOk l.binomial_coefs) ∧
        (∃ lay ∈ mv.layouts, Layout.scExact l ≤ Layout.scExact lay)) ∧
      (∀ lay' ∈ S.filterMap (fun lay =>
          match BMap.lookup lay.binomial_coefs ({c} : Finset α) with
          | some 1 => if col = Color.Blue then
              some (⟨BMap.eraseKey lay.binomial_coefs ({c} : Finset α)⟩ : Layout α) else none
          | some 0 => if col = Color.Black then
              some (⟨BMap.eraseKey lay.binomial_coefs ({c} : Finset α)⟩ : Layout α) else none
          | _ => none),
        Layout.WFb lay'.binomial_coefs ∧ Layout.layUnion lay' = mv.scope.erase c) ∧
      mv.learn c col = some ⟨mv.scope.erase c,
        S.filterMap (fun lay =>
          match BMap.lookup lay.binomial_coefs ({c} : Finset α) with
          | some 1 => if col = Color.Blue then
              some (⟨BMap.eraseKey lay.binomial_coefs ({c} : Finset α)⟩ : Layout α) else none
          | some 0 => if col = Color.Black then
              some (⟨BMap.eraseKey lay.binomial_coefs ({c} : Finset α)⟩ : Layout α) else none
          | _ => none)⟩ := by
  rcases split_singleton hwf hc with ⟨S, hsplit, hadm, hsum, hprops⟩
  have hkeep2 : ∀ lay' ∈ S.filterMap (fun lay =>
      match BMap.lookup lay.binomial_coefs ({c} : Finset α) with
      | some 1 => if col = Color.Blue then
          some (⟨BMap.eraseKey lay.binomial_coefs ({c} : Finset α)⟩ : Layout α) else none
      | some 0 => if col = Color.Black then
          some (⟨BMap.eraseKey lay.binomial_coefs ({c} : Finset α)⟩ : Layout α) else none
      | _ => none),
      Layout.WFb lay'.binomial_coefs ∧ Layout.layUnion lay' = mv.scope.erase c := by
    intro lay' hlay'
    rcases List.mem_filterMap.mp hlay' with ⟨l, hl, hgl⟩
    rcases hprops l hl with ⟨hwfl, hlu, ⟨i, hi, hlk⟩, _, _⟩
    have hfacts := singleton_group_facts hwfl hlk hi
    have hl' : lay' = (⟨BMap.eraseKey l.binomial_coefs ({c} : Finset α)⟩ : Layout α) := by
      rw [hlk] at hgl
      interval_cases i <;> cases col <;> simp at hgl <;> exact hgl.symm
    rw [hl']
    exact ⟨hfacts.1, by rw [hfacts.2.1, hlu, Finset.erase_eq]⟩
  refine ⟨S, hsplit, hadm, hsum, hprops, hkeep2, ?_⟩
  have hstep : ∀ l ∈ S, learnStep ({c} : Finset α) col l =
      some (match BMap.lookup l.binomial_coefs ({c} : Finset α) with
        | some 1 => if col = Color.Blue then
            some (⟨BMap.eraseKey l.binomial_coefs ({c} : Finset α)⟩ : Layout α) else none
        | some 0 => if col = Color.Black then
            some (⟨BMap.eraseKey l.binomial_coefs ({c} : Finset α)⟩ : Layout α) else none
        | _ => none) := by
    intro l hl
    rcases hprops l hl with ⟨hwfl, _, ⟨i, hi, hlk⟩, _, _⟩
    exact learnStep_eq col hwfl hlk hi
  have homap := omapM_eq_map (f := learnStep ({c} : Finset α) col) hstep
  unfold Multiverse.learn
  rw [if_neg hnescope, if_pos hc, hsplit]
  simp only [Option.bind_eq_bind, Option.some_bind]
  rw [homap]
  simp only [Option.bind_eq_bind, Option.some_bind]
  rw [List.filterMap_map]
  simp only [Function.id_comp]
  unfold Multiverse.new
  rw [if_pos (fun lay' hlay' => (hkeep2 lay' hlay').2)]

/-- C4: `learn(M, c, colour)` returns Empty when the scope is exactly
`{c}`; otherwise its scope is `scope \ {c}` and its layouts are obtained by
splitting `{c}` into a singleton group, dropping every split layout whose
blue count at `{c}` contradicts the learned colour, and removing the `{c}`
group from the survivors. -/
theorem c4_learn_spec {α : Type} [DecidableEq α] (mv : Multiverse α) (c : α) (col : Color)
    (hwf : mv.WF) (hc : c ∈ mv.scope) :
    (mv.scope = ({c} : Finset α) → mv.learn c col = some Multiverse.empty) ∧
    (mv.scope ≠ ({c} : Finset α) → ∃ S mv',
      Layout.split mv.layouts ({c} : Finset α) = some S ∧
      mv.learn c col = some mv' ∧
      mv'.scope = mv.scope \ {c} ∧
      mv'.layouts = S.filterMap (fun lay =>
        match BMap.lookup lay.binomial_coefs ({c} : Finset α) with
        | some 1 => if col = Color.Blue then
            some (⟨BMap.eraseKey lay.binomial_coefs ({c} : Finset α)⟩ : Layout α) else none
        | some 0 => if col = Color.Black then
            some (⟨BMap.eraseKey lay.binomial_coefs ({c} : Finset α)⟩ : Layout α) else none
        | _ => none)) := by
  constructor
  · intro hs
    unfold Multiverse.learn
    rw [if_pos hs]
  · intro hnescope
    rcases learn_result col hwf hc hnescope with ⟨S, hsplit, _, _, _, _, hlearn⟩
    exact ⟨S, _, hsplit, hlearn, by simp [Finset.erase_eq], rfl⟩

/-- Witness for `c4_learn_spec`: the multiverse with scope `{0, 1}` and the
single layout `{ {0,1} ↦ 1 }`, learning coordinate `0` as Blue. -/
theorem c4_witness :
    ((⟨{0, 1}, [⟨[({0, 1}, 1)]⟩]⟩ : Multiverse ℕ).scope = ({0} : Finset ℕ) →
      (⟨{0, 1}, [⟨[({0, 1}, 1)]⟩]⟩ : Multiverse ℕ).learn 0 Color.Blue =
        some Multiverse.empty) ∧
    ((⟨{0, 1}, [⟨[({0, 1}, 1)]⟩]⟩ : Multiverse ℕ).scope ≠ ({0} : Finset ℕ) → ∃ S mv',
      Layout.split [(⟨[({0, 1}, 1)]⟩ : Layout ℕ)] ({0} : Finset ℕ) = some S ∧
      (⟨{0, 1}, [⟨[({0, 1}, 1)]⟩]⟩ : Multiverse ℕ).learn 0 Color.Blue = some mv' ∧
      mv'.scope = ({0, 1} : Finset ℕ) \ {0} ∧
      mv'.layouts = S.filterMap (fun lay =>
        match BMap.lookup lay.binomial_coefs ({0} : Finset ℕ) with
        | some 1 => if Color.Blue = Color.Blue then
            some (⟨BMap.eraseKey lay.binomial_coefs ({0} : Finset ℕ)⟩ : Layout ℕ) else none
        | some 0 => if Color.Blue = Color.Black then
            some (⟨BMap.eraseKey lay.binomial_coefs ({0} : Finset ℕ)⟩ : Layout ℕ) else none
        | _ => none)) :=
  c4_learn_spec (⟨{0, 1}, [⟨[({0, 1}, 1)]⟩]⟩ : Multiverse ℕ) 0 Color.Blue
    (by decide) (by decide)

/-- Summed exact counts only decrease under a `filterMap` whose kept images
have no larger exact count than their preimage. -/
theorem scExactSum_filterMap_le {α : Type} {g : Layout α → Option (Layout α)} :
    ∀ S : List (Layout α),
      (∀ l ∈ S, ∀ l', g l = some l' → Layout.scExact l' ≤ Layout.scExact l) →
      scExactSum (S.filterMap g) ≤ scExactSum S := by
  intro S
  induction S with
  | nil => intro _; simp [scExactSum]
  | cons l tl ih =>
    intro h
    have htl := ih (fun x hx => h x (List.mem_cons_of_mem _ hx))
    cases hg : g l with
    | none =>
      simp only [List.filterMap_cons, hg]
      unfold scExactSum
      simp only [List.map_cons, List.sum_cons]
      exact htl.trans (Nat.le_add_left _ _)
    | some l' =>
      simp only [List.filterMap_cons, hg]
      unfold scExactSum
      simp only [List.map_cons, List.sum_cons]
      exact Nat.add_le_add (h l (List.mem_cons_self l tl) l' hg) htl

/-- C5: `learn` never increases the checked 64-bit solution-count upper
bound.  On a well-formed multiverse with `c` in scope, `learn` succeeds, and
whenever the original bound is a number `x` (not an overflow `None`, which
the claim treats as larger than everything), the learned multiverse's bound
is a number `y ≤ x`. -/
theorem c5_learn_monotone {α : Type} [DecidableEq α] (mv : Multiverse α) (c : α)
    (col : Color) (hwf : mv.WF) (hc : c ∈ mv.scope) :
    ∃ mv', mv.learn c col = some mv' ∧
      ∀ x, mv.solution_count_upper_bound = some x →
        ∃ y, mv'.solution_count_upper_bound = some y ∧ y ≤ x := by
  by_cases hs : mv.scope = ({c} : Finset α)
  · refine ⟨Multiverse.empty, ?_, ?_⟩
    · unfold Multiverse.learn
      rw [if_pos hs]
    · intro x _
      exact ⟨0, rfl, Nat.zero_le x⟩
  · rcases learn_result col hwf hc hs with ⟨S, hsplit, hadm, hsum, hprops, hkeep, hlearn⟩
    refine ⟨⟨mv.scope.erase c, S.filterMap (fun lay =>
        match BMap.lookup lay.binomial_coefs ({c} : Finset α) with
        | some 1 => if col = Color.Blue then
            some (⟨BMap.eraseKey lay.binomial_coefs ({c} : Finset α)⟩ : Layout α) else none
        | some 0 => if col = Color.Black then
            some (⟨BMap.eraseKey lay.binomial_coefs ({c} : Finset α)⟩ : Layout α) else none
        | _ => none)⟩, hlearn, ?_⟩
    intro x hx
    rw [bound_eq mv hwf] at hx
    by_cases hcond : (∀ lay ∈ mv.layouts,
        nckAllOk lay.binomial_coefs ∧ Layout.scExact lay ≤ U64MAX) ∧
        scExactSum mv.layouts ≤ U64MAX
    · rw [if_pos hcond] at hx
      have hxeq : x = scExactSum mv.layouts := (Option.some.inj hx).symm
      have hwf' : (⟨mv.scope.erase c, S.filterMap (fun lay =>
          match BMap.lookup lay.binomial_coefs ({c} : Finset α) with
          | some 1 => if col = Color.Blue then
              some (⟨BMap.eraseKey lay.binomial_coefs ({c} : Finset α)⟩ : Layout α) else none
          | some 0 => if col = Color.Black then
              some (⟨BMap.eraseKey lay.binomial_coefs ({c} : Finset α)⟩ : Layout α) else none
          | _ => none)⟩ : Multiverse α).WF :=
        fun lay' hl' => hkeep lay' hl'
      have hLfacts : ∀ lay' ∈ S.filterMap (fun lay =>
          match BMap.lookup lay.binomial_coefs ({c} : Finset α) with
          | some 1 => if col = Color.Blue then
              some (⟨BMap.eraseKey lay.binomial_coefs ({c} : Finset α)⟩ : Layout α) else none
          | some 0 => if col = Color.Black then
              some (⟨BMap.eraseKey lay.binomial_coefs ({c} : Finset α)⟩ : Layout α) else none
          | _ => none),
          nckAllOk lay'.binomial_coefs ∧ Layout.scExact lay' ≤ U64MAX := by
        intro lay' hlay'
        rcases List.mem_filterMap.mp hlay' with ⟨l, hl, hgl⟩
        rcases hprops l hl with ⟨hwfl, _, ⟨i, hi, hlk⟩, hnck, ⟨lay0, hlay0, hle⟩⟩
        have hfacts := singleton_group_facts hwfl hlk hi
        have hl' : lay' = (⟨BMap.eraseKey l.binomial_coefs ({c} : Finset α)⟩ : Layout α) := by
          rw [hlk] at hgl
          interval_cases i <;> cases col <;> simp at hgl <;> exact hgl.symm
        subst hl'
        refine ⟨hfacts.2.2.2 (hnck (fun lay hlay => (hcond.1 lay hlay).1)), ?_⟩
        rw [hfacts.2.2.1]
        exact hle.trans (hcond.1 lay0 hlay0).2
      have hsumle : scExactSum (S.filterMap (fun lay =>
          match BMap.lookup lay.binomial_coefs ({c} : Finset α) with
          | some 1 => if col = Color.Blue then
              some (⟨BMap.eraseKey lay.binomial_coefs ({c} : Finset α)⟩ : Layout α) else none
          | some 0 => if col = Color.Black then
              some (⟨BMap.eraseKey lay.binomial_coefs ({c} : Finset α)⟩ : Layout α) else none
          | _ => none)) ≤ scExactSum S := by
        refine scExactSum_filterMap_le S ?_
        intro l hl l' hgl
        rcases hprops l hl with ⟨hwfl, _, ⟨i, hi, hlk⟩, _, _⟩
        have hfacts := singleton_group_facts hwfl hlk hi
        have hl' : l' = (⟨BMap.eraseKey l.binomial_coefs ({c} : Finset α)⟩ : Layout α) := by
          rw [hlk] at hgl
          interval_cases i <;> cases col <;> simp at hgl <;> exact hgl.symm
        rw [hl']
        exact le_of_eq hfacts.2.2.1
      refine ⟨scExactSum (S.filterMap (fun lay =>
          match BMap.lookup lay.binomial_coefs ({c} : Finset α) with
          | some 1 => if col = Color.Blue then
              some (⟨BMap.eraseKey lay.binomial_coefs ({c} : Finset α)⟩ : Layout α) else none
          | some 0 => if col = Color.Black then
              some (⟨BMap.eraseKey lay.binomial_coefs ({c} : Finset α)⟩ : Layout α) else none
          | _ => none)), ?_, ?_⟩
      · rw [bound_eq _ hwf']
        exact if_pos ⟨hLfacts, hsumle.trans (by rw [hsum]; exact hcond.2)⟩
      · rw [hxeq, ← hsum]
        exact hsumle
    · rw [if_neg hcond] at hx
      cases hx

/-- Witness for `c5_learn_monotone`: learning coordinate `0` Blue on the
multiverse with scope `{0, 1}` and single layout `{ {0,1} ↦ 1 }`. -/
theorem c5_witness :
    ∃ mv', (⟨{0, 1}, [⟨[({0, 1}, 1)]⟩]⟩ : Multiverse ℕ).learn 0 Color.Blue = some mv' ∧
      ∀ x, (⟨{0, 1}, [⟨[({0, 1}, 1)]⟩]⟩ : Multiverse ℕ).solution_count_upper_bound = some x →
        ∃ y, mv'.solution_count_upper_bound = some y ∧ y ≤ x :=
  c5_learn_monotone (⟨{0, 1}, [⟨[({0, 1}, 1)]⟩]⟩ : Multiverse ℕ) 0 Color.Blue
    (by decide) (by decide)

/-- The blue-run move loop of `distribute_together` on a duplicate-free
window: starting at `(B, W)` it moves the `steps`-cell window of `scope_vec`
at index `i0` from `W` into `B`, never hitting the failed-`remove` panic. -/
theorem dtMove_run {α : Type} [DecidableEq α] (scope_vec : List α) :
    ∀ steps i0 (B W : Finset α),
      i0 + steps ≤ scope_vec.length →
      ((scope_vec.drop i0).take steps).Nodup →
      (∀ a ∈ (scope_vec.drop i0).take steps, a ∈ W) →
      dtMove scope_vec i0 steps (B, W) =
        some (B ∪ ((scope_vec.drop i0).take steps).toFinset,
          W \ ((scope_vec.drop i0).take steps).toFinset) := by
  intro steps
  induction steps with
  | zero => intro i0 B W _ _ _; simp [dtMove]
  | succ n ih =>
    intro i0 B W hlen hnd hmem
    have hi0 : i0 < scope_vec.length := by omega
    have hdrop : scope_vec.drop i0 = scope_vec[i0] :: scope_vec.drop (i0 + 1) :=
      List.drop_eq_getElem_cons hi0
    rw [hdrop, List.take_succ_cons] at hnd hmem ⊢
    have hcons := List.nodup_cons.mp hnd
    have hget : scope_vec.get? i0 = some scope_vec[i0] := by
      rw [List.get?_eq_getElem?]
      exact List.getElem?_eq_getElem hi0
    have hmem0 : scope_vec[i0] ∈ W := hmem _ (List.mem_cons_self _ _)
    unfold dtMove
    rw [hget]
    simp only [Option.bind_eq_bind, Option.some_bind]
    rw [if_pos hmem0]
    rw [ih (i0 + 1) (insert scope_vec[i0] B) (W.erase scope_vec[i0]) (by omega) hcons.2
      (fun b hb => Finset.mem_erase.mpr
        ⟨fun hba => hcons.1 (hba ▸ hb), hmem b (List.mem_cons_of_mem _ hb)⟩)]
    have h1 : insert scope_vec[i0] B ∪ ((scope_vec.drop (i0 + 1)).take n).toFinset
        = B ∪ (scope_vec[i0] :: (scope_vec.drop (i0 + 1)).take n).toFinset := by
      ext x
      simp only [Finset.mem_union, Finset.mem_insert, List.toFinset_cons]
      tauto
    have h2 : W.erase scope_vec[i0] \ ((scope_vec.drop (i0 + 1)).take n).toFinset
        = W \ (scope_vec[i0] :: (scope_vec.drop (i0 + 1)).take n).toFinset := by
      ext x
      simp only [Finset.mem_sdiff, Finset.mem_erase, List.toFinset_cons,
        Finset.mem_insert]
      tauto
    rw [h1, h2]

/-- A list of layouts each counting exactly one solution has as many exact
solutions as layouts. -/
theorem scExactSum_all_one {α : Type} :
    ∀ ls : List (Layout α), (∀ l ∈ ls, Layout.scExact l = 1) →
      scExactSum ls = ls.length := by
  intro ls
  induction ls with
  | nil => intro _; rfl
  | cons l tl ih =>
    intro h
    unfold scExactSum
    simp only [List.map_cons, List.sum_cons, List.length_cons]
    rw [h l (List.mem_cons_self _ _)]
    have := ih (fun x hx => h x (List.mem_cons_of_mem _ hx))
    unfold scExactSum at this
    omega

/-- C8: on a duplicate-free non-empty scope of `n` cells with `k ≤ n` blues
(`n` within `u64`), `distribute_together` succeeds; for `0 < k < n` it
yields the `n - k + 1` layouts indexed by the leftmost blue position, each
made of the contiguous blue run mapped to `k` plus the remaining cells
mapped to `0`; for `k = 0` or `k = n` it yields a single one-group
layout. -/
theorem c8_distribute_together_layouts {α : Type} [DecidableEq α]
    (scope_vec : List α) (k : ℕ) (hne : scope_vec ≠ [])
    (hnd : scope_vec.Nodup) (hk : k ≤ scope_vec.length)
    (hmax : scope_vec.length ≤ U64MAX) :
    ∃ mv, distribute_together scope_vec k = some mv ∧
      mv.scope = scope_vec.toFinset ∧
      (0 < k → k < scope_vec.length →
        mv.layouts = (List.range (scope_vec.length - k + 1)).map (fun i0 =>
          (⟨[(((scope_vec.drop i0).take k).toFinset, k),
             (scope_vec.toFinset \ ((scope_vec.drop i0).take k).toFinset, 0)]⟩ : Layout α)) ∧
        mv.layouts.length = scope_vec.length - k + 1) ∧
      ((k = 0 ∨ k = scope_vec.length) →
        mv.layouts = [(⟨[(scope_vec.toFinset, k)]⟩ : Layout α)]) := by
  have hn : 0 < scope_vec.length := List.length_pos.mpr hne
  have hcard : scope_vec.toFinset.card = scope_vec.length := List.toFinset_card_of_nodup hnd
  have hTne : scope_vec.toFinset ≠ ∅ := fun h => hne ((List.toFinset_eq_empty_iff scope_vec).mp h)
  have h1max : 1 ≤ U64MAX := by norm_num [U64MAX]
  by_cases hk0 : k = 0
  · subst hk0
    have hwfb0 : Layout.WFb [(scope_vec.toFinset, (0 : ℕ))] := by
      constructor
      · intro p hp
        rw [List.mem_singleton] at hp
        subst hp
        exact ⟨Finset.nonempty_iff_ne_empty.mpr hTne, Nat.zero_le _⟩
      · simp
    have hlayU0 : Layout.layUnion (⟨[(scope_vec.toFinset, 0)]⟩ : Layout α)
        = scope_vec.toFinset := by
      unfold Layout.layUnion
      simp
    have hsc0 : Layout.scExact (⟨[(scope_vec.toFinset, 0)]⟩ : Layout α) = 1 := by
      unfold Layout.scExact
      simp
    have hmwf0 : (⟨scope_vec.toFinset,
        [(⟨[(scope_vec.toFinset, 0)]⟩ : Layout α)]⟩ : Multiverse α).WF := by
      intro l hl
      rw [List.mem_singleton] at hl
      subst hl
      exact ⟨hwfb0, hlayU0⟩
    have hguard0 : (⟨scope_vec.toFinset,
        [(⟨[(scope_vec.toFinset, 0)]⟩ : Layout α)]⟩ : Multiverse α).solution_count_upper_bound
        = some 1 := by
      rw [bound_eq _ hmwf0]
      dsimp only
      rw [if_pos ?hc]
      case hc =>
        refine ⟨fun l hl => ?_, ?_⟩
        · rw [List.mem_singleton] at hl
          subst hl
          refine ⟨fun p hp => ?_, by rw [hsc0]; exact h1max⟩
          rw [List.mem_singleton] at hp
          subst hp
          intro i hi
          dsimp only at hi
          exact absurd hi (by omega)
        · unfold scExactSum
          simp [hsc0, h1max]
      unfold scExactSum
      simp [hsc0]
    have hFA : ∀ i0 ∈ ([0] : List ℕ), dtBody scope_vec 0 i0
        = some ((fun _ => (⟨[(scope_vec.toFinset, 0)]⟩ : Layout α)) i0) := by
      intro i0 hi0
      rw [List.mem_singleton] at hi0
      subst hi0
      unfold dtBody
      rw [show dtMove scope_vec 0 0 ((∅ : Finset α), scope_vec.toFinset)
        = some ((∅ : Finset α), scope_vec.toFinset) from rfl]
      simp only [Option.bind_eq_bind, Option.some_bind]
      rw [if_neg (show ¬((∅ : Finset α).card ≠ 0) by simp)]
      rw [if_neg (show ¬(scope_vec.toFinset.card + (∅ : Finset α).card ≠ scope_vec.length) by
        simp [hcard])]
      rw [if_neg hTne]
      simp only [if_true, List.nil_append]
      unfold Layout.new
      rw [if_pos hwfb0]
    refine ⟨⟨scope_vec.toFinset, [(⟨[(scope_vec.toFinset, 0)]⟩ : Layout α)]⟩, ?_, rfl,
      fun h _ => absurd h (lt_irrefl 0), fun _ => rfl⟩
    unfold distribute_together
    rw [if_neg (show ¬scope_vec.length = 0 by omega),
      if_neg (show ¬scope_vec.length < 0 by omega)]
    dsimp only
    rw [if_pos (show (0 : ℕ) = 0 ∨ (0 : ℕ) = scope_vec.length from Or.inl rfl)]
    rw [if_neg (one_ne_zero : (1 : ℕ) ≠ 0)]
    rw [show List.range 1 = [0] from rfl]
    rw [omapM_eq_map hFA]
    simp only [List.map_cons, List.map_nil, Option.bind_eq_bind, Option.some_bind]
    unfold Multiverse.new
    rw [if_pos (show ∀ lay ∈ [(⟨[(scope_vec.toFinset, 0)]⟩ : Layout α)],
        Layout.layUnion lay = scope_vec.toFinset by
      intro lay hl
      rw [List.mem_singleton] at hl
      subst hl
      exact hlayU0)]
    simp only [Option.some_bind]
    rw [if_pos hguard0]
  by_cases hkn : k = scope_vec.length
  · subst hkn
    have hwfbB : Layout.WFb [(scope_vec.toFinset, scope_vec.length)] := by
      constructor
      · intro p hp
        rw [List.mem_singleton] at hp
        subst hp
        exact ⟨Finset.nonempty_iff_ne_empty.mpr hTne, le_of_eq hcard.symm⟩
      · simp
    have hlayUB : Layout.layUnion (⟨[(scope_vec.toFinset, scope_vec.length)]⟩ : Layout α)
        = scope_vec.toFinset := by
      unfold Layout.layUnion
      simp
    have hscB : Layout.scExact (⟨[(scope_vec.toFinset, scope_vec.length)]⟩ : Layout α) = 1 := by
      unfold Layout.scExact
      simp [hcard]
    have hmwfB : (⟨scope_vec.toFinset,
        [(⟨[(scope_vec.toFinset, scope_vec.length)]⟩ : Layout α)]⟩ : Multiverse α).WF := by
      intro l hl
      rw [List.mem_singleton] at hl
      subst hl
      exact ⟨hwfbB, hlayUB⟩
    have hguardB : (⟨scope_vec.toFinset,
        [(⟨[(scope_vec.toFinset, scope_vec.length)]⟩ :
          Layout α)]⟩ : Multiverse α).solution_count_upper_bound = some 1 := by
      rw [bound_eq _ hmwfB]
      dsimp only
      rw [if_pos ?hc]
      case hc =>
        refine ⟨fun l hl => ?_, ?_⟩
        · rw [List.mem_singleton] at hl
          subst hl
          refine ⟨fun p hp => ?_, by rw [hscB]; exact h1max⟩
          rw [List.mem_singleton] at hp
          subst hp
          intro i hi
          dsimp only at hi
          exact absurd hi (by omega)
        · unfold scExactSum
          simp [hscB, h1max]
      unfold scExactSum
      simp [hscB]
    have hFB : ∀ i0 ∈ ([0] : List ℕ), dtBody scope_vec scope_vec.length i0
        = some ((fun _ =>
          (⟨[(scope_vec.toFinset, scope_vec.length)]⟩ : Layout α)) i0) := by
      intro i0 hi0
      rw [List.mem_singleton] at hi0
      subst hi0
      unfold dtBody
      have hdtB := dtMove_run scope_vec scope_vec.length 0 ∅ scope_vec.toFinset
        (by omega)
        (by rw [List.drop_zero, List.take_length]; exact hnd)
        (by rw [List.drop_zero, List.take_length]; exact fun a ha => List.mem_toFinset.mpr ha)
      rw [List.drop_zero, List.take_length, Finset.empty_union, Finset.sdiff_self] at hdtB
      rw [hdtB]
      simp only [Option.bind_eq_bind, Option.some_bind]
      rw [if_neg (show ¬(scope_vec.toFinset.card ≠ scope_vec.length) by simp [hcard])]
      rw [if_neg (show ¬((∅ : Finset α).card + scope_vec.toFinset.card ≠ scope_vec.length) by
        simp [hcard])]
      rw [if_neg hTne]
      simp only [if_true]
      unfold Layout.new
      rw [if_pos hwfbB]
    refine ⟨⟨scope_vec.toFinset,
      [(⟨[(scope_vec.toFinset, scope_vec.length)]⟩ : Layout α)]⟩, ?_, rfl,
      fun _ h => absurd h (lt_irrefl _), fun _ => rfl⟩
    unfold distribute_together
    rw [if_neg (show ¬scope_vec.length = 0 by omega),
      if_neg (show ¬scope_vec.length < scope_vec.length by omega)]
    dsimp only
    rw [if_pos (show scope_vec.length = 0 ∨ scope_vec.length = scope_vec.length
      from Or.inr rfl)]
    rw [if_neg (one_ne_zero : (1 : ℕ) ≠ 0)]
    rw [show List.range 1 = [0] from rfl]
    rw [omapM_eq_map hFB]
    simp only [List.map_cons, List.map_nil, Option.bind_eq_bind, Option.some_bind]
    unfold Multiverse.new
    rw [if_pos (show ∀ lay ∈ [(⟨[(scope_vec.toFinset, scope_vec.length)]⟩ : Layout α)],
        Layout.layUnion lay = scope_vec.toFinset by
      intro lay hl
      rw [List.mem_singleton] at hl
      subst hl
      exact hlayUB)]
    simp only [Option.some_bind]
    rw [if_pos hguardB]
  · have hkpos : 0 < k := Nat.pos_of_ne_zero hk0
    have hklt : k < scope_vec.length := lt_of_le_of_ne hk hkn
    have hdeg : ¬(k = 0 ∨ k = scope_vec.length) := fun h => h.elim hk0 hkn
    have hrun : ∀ i0, i0 < scope_vec.length - k + 1 →
        ((scope_vec.drop i0).take k).Nodup ∧
        ((scope_vec.drop i0).take k).length = k ∧
        ((scope_vec.drop i0).take k).toFinset ⊆ scope_vec.toFinset ∧
        ((scope_vec.drop i0).take k).toFinset.card = k ∧
        (scope_vec.toFinset \ ((scope_vec.drop i0).take k).toFinset).card
          = scope_vec.length - k := by
      intro i0 hi0
      have hsub : List.Sublist ((scope_vec.drop i0).take k) scope_vec :=
        (List.take_sublist _ _).trans (List.drop_sublist _ _)
      have h1 : ((scope_vec.drop i0).take k).Nodup := hnd.sublist hsub
      have h2 : ((scope_vec.drop i0).take k).length = k := by
        rw [List.length_take, List.length_drop]
        omega
      have h3 : ((scope_vec.drop i0).take k).toFinset ⊆ scope_vec.toFinset := by
        intro a ha
        exact List.mem_toFinset.mpr (hsub.subset (List.mem_toFinset.mp ha))
      have h4 : ((scope_vec.drop i0).take k).toFinset.card = k := by
        rw [List.toFinset_card_of_nodup h1, h2]
      have h5 : (scope_vec.toFinset \ ((scope_vec.drop i0).take k).toFinset).card
          = scope_vec.length - k := by
        rw [Finset.card_sdiff h3, hcard, h4]
      exact ⟨h1, h2, h3, h4, h5⟩
    have hGfacts : ∀ i0, i0 < scope_vec.length - k + 1 →
        Layout.WFb [(((scope_vec.drop i0).take k).toFinset, k),
          (scope_vec.toFinset \ ((scope_vec.drop i0).take k).toFinset, 0)] ∧
        Layout.layUnion (⟨[(((scope_vec.drop i0).take k).toFinset, k),
          (scope_vec.toFinset \ ((scope_vec.drop i0).take k).toFinset, 0)]⟩ : Layout α)
          = scope_vec.toFinset ∧
        Layout.scExact (⟨[(((scope_vec.drop i0).take k).toFinset, k),
          (scope_vec.toFinset \ ((scope_vec.drop i0).take k).toFinset, 0)]⟩ : Layout α) = 1 ∧
        nckAllOk [(((scope_vec.drop i0).take k).toFinset, k),
          (scope_vec.toFinset \ ((scope_vec.drop i0).take k).toFinset, 0)] := by
      intro i0 hi0
      rcases hrun i0 hi0 with ⟨h1, h2, h3, h4, h5⟩
      refine ⟨⟨?_, ?_⟩, ?_, ?_, ?_⟩
      · intro p hp
        rcases List.mem_cons.mp hp with rfl | hp'
        · exact ⟨Finset.card_pos.mp (by rw [h4]; exact hkpos), le_of_eq h4.symm⟩
        · rcases List.mem_cons.mp hp' with rfl | h
          · exact ⟨Finset.card_pos.mp (by rw [h5]; omega), Nat.zero_le _⟩
          · cases h
      · simp only [List.map_cons, List.map_nil]
        refine List.Pairwise.cons ?_ (List.pairwise_singleton _ _)
        intro b hb
        rw [List.mem_singleton] at hb
        subst hb
        exact Finset.disjoint_sdiff
      · unfold Layout.layUnion
        simp only [List.foldl_cons, List.foldl_nil, Finset.empty_union]
        exact Finset.union_sdiff_of_subset h3
      · unfold Layout.scExact
        simp [h4]
      · intro p hp
        rcases List.mem_cons.mp hp with rfl | hp'
        · intro i hi
          dsimp only at hi
          exact absurd hi (by omega)
        · rcases List.mem_cons.mp hp' with rfl | h
          · intro i hi
            dsimp only at hi
            exact absurd hi (by omega)
          · cases h
    have hF : ∀ i0 ∈ List.range (scope_vec.length - k + 1), dtBody scope_vec k i0
        = some ((fun i0 =>
          (⟨[(((scope_vec.drop i0).take k).toFinset, k),
             (scope_vec.toFinset \ ((scope_vec.drop i0).take k).toFinset, 0)]⟩ : Layout α))
          i0) := by
      intro i0 hi0
      rw [List.mem_range] at hi0
      rcases hrun i0 hi0 with ⟨h1, h2, h3, h4, h5⟩
      have hdt := dtMove_run scope_vec k i0 ∅ scope_vec.toFinset (by omega) h1
        (fun a ha => List.mem_toFinset.mpr
          (((List.take_sublist _ _).trans (List.drop_sublist _ _)).subset ha))
      rw [Finset.empty_union] at hdt
      unfold dtBody
      rw [hdt]
      simp only [Option.bind_eq_bind, Option.some_bind]
      rw [if_neg (show ¬(((scope_vec.drop i0).take k).toFinset.card ≠ k) by simp [h4])]
      rw [if_neg (show
        ¬((scope_vec.toFinset \ ((scope_vec.drop i0).take k).toFinset).card +
          ((scope_vec.drop i0).take k).toFinset.card ≠ scope_vec.length) by
        rw [h4, h5]; omega)]
      rw [if_neg (show ¬(((scope_vec.drop i0).take k).toFinset = ∅) from fun h => by
        rw [h, Finset.card_empty] at h4
        omega)]
      rw [if_neg (show
        ¬(scope_vec.toFinset \ ((scope_vec.drop i0).take k).toFinset = ∅) from fun h => by
        rw [h, Finset.card_empty] at h5
        omega)]
      simp only [List.singleton_append]
      unfold Layout.new
      rw [if_pos (hGfacts i0 hi0).1]
    have hmwfC : (⟨scope_vec.toFinset,
        (List.range (scope_vec.length - k + 1)).map (fun i0 =>
          (⟨[(((scope_vec.drop i0).take k).toFinset, k),
             (scope_vec.toFinset \ ((scope_vec.drop i0).take k).toFinset, 0)]⟩ :
            Layout α))⟩ : Multiverse α).WF := by
      intro lay hl
      rcases List.mem_map.mp hl with ⟨i0, hi0, rfl⟩
      have hfacts := hGfacts i0 (List.mem_range.mp hi0)
      exact ⟨hfacts.1, hfacts.2.1⟩
    have hsumC : scExactSum ((List.range (scope_vec.length - k + 1)).map (fun i0 =>
        (⟨[(((scope_vec.drop i0).take k).toFinset, k),
           (scope_vec.toFinset \ ((scope_vec.drop i0).take k).toFinset, 0)]⟩ : Layout α)))
        = scope_vec.length - k + 1 := by
      rw [scExactSum_all_one]
      · rw [List.length_map, List.length_range]
      · intro l hl
        rcases List.mem_map.mp hl with ⟨i0, hi0, rfl⟩
        exact (hGfacts i0 (List.mem_range.mp hi0)).2.2.1
    have hguardC : (⟨scope_vec.toFinset,
        (List.range (scope_vec.length - k + 1)).map (fun i0 =>
          (⟨[(((scope_vec.drop i0).take k).toFinset, k),
             (scope_vec.toFinset \ ((scope_vec.drop i0).take k).toFinset, 0)]⟩ :
            Layout α))⟩ : Multiverse α).solution_count_upper_bound
        = some (scope_vec.length - k + 1) := by
      rw [bound_eq _ hmwfC]
      dsimp only
      rw [if_pos ?hc]
      case hc =>
        refine ⟨fun l hl => ?_, ?_⟩
        · rcases List.mem_map.mp hl with ⟨i0, hi0, rfl⟩
          have hfacts := hGfacts i0 (List.mem_range.mp hi0)
          exact ⟨hfacts.2.2.2, le_of_eq_of_le hfacts.2.2.1 h1max⟩
        · rw [hsumC]
          unfold U64MAX at hmax ⊢
          omega
      rw [hsumC]
    refine ⟨⟨scope_vec.toFinset, (List.range (scope_vec.length - k + 1)).map (fun i0 =>
      (⟨[(((scope_vec.drop i0).take k).toFinset, k),
         (scope_vec.toFinset \ ((scope_vec.drop i0).take k).toFinset, 0)]⟩ : Layout α))⟩,
      ?_, rfl, fun _ _ => ⟨rfl, by rw [List.length_map, List.length_range]⟩,
      fun h => absurd h hdeg⟩
    unfold distribute_together
    rw [if_neg (show ¬scope_vec.length = 0 by omega),
      if_neg (show ¬scope_vec.length < k by omega)]
    dsimp only
    rw [if_neg hdeg]
    rw [if_neg (show ¬(scope_vec.length - k + 1) = 0 by omega)]
    rw [omapM_eq_map hF]
    simp only [Option.bind_eq_bind, Option.some_bind]
    unfold Multiverse.new
    rw [if_pos (show ∀ lay ∈ (List.range (scope_vec.length - k + 1)).map (fun i0 =>
        (⟨[(((scope_vec.drop i0).take k).toFinset, k),
           (scope_vec.toFinset \ ((scope_vec.drop i0).take k).toFinset, 0)]⟩ : Layout α)),
        Layout.layUnion lay = scope_vec.toFinset by
      intro lay hl
      rcases List.mem_map.mp hl with ⟨i0, hi0, rfl⟩
      exact (hGfacts i0 (List.mem_range.mp hi0)).2.1)]
    simp only [Option.some_bind]
    rw [if_pos hguardC]

/-- Witness for `c8_distribute_together_layouts` on the three-cell scope
`[0, 1, 2]` with one blue. -/
theorem c8_witness :
    ∃ mv, distribute_together [0, 1, 2] 1 = some mv ∧
      mv.scope = ([0, 1, 2] : List ℕ).toFinset ∧
      (0 < 1 → 1 < ([0, 1, 2] : List ℕ).length →
        mv.layouts = (List.range (([0, 1, 2] : List ℕ).length - 1 + 1)).map (fun i0 =>
          (⟨[(((([0, 1, 2] : List ℕ).drop i0).take 1).toFinset, 1),
             (([0, 1, 2] : List ℕ).toFinset \
               ((([0, 1, 2] : List ℕ).drop i0).take 1).toFinset, 0)]⟩ : Layout ℕ)) ∧
        mv.layouts.length = ([0, 1, 2] : List ℕ).length - 1 + 1) ∧
      ((1 = 0 ∨ 1 = ([0, 1, 2] : List ℕ).length) →
        mv.layouts = [(⟨[(([0, 1, 2] : List ℕ).toFinset, 1)]⟩ : Layout ℕ)]) :=
  c8_distribute_together_layouts [0, 1, 2] 1 (by decide) (by decide) (by decide) (by decide)

/-- C10: with fewer than two blue neighbours, `zone6` under the `Separated`
modifier panics: `distribute_in_ring` with `together = false` asserts
`blue_count >= 2` and, unlike the `Together` case, has no degenerate
fallback. -/
theorem c10_zone6_separated_panics (defn : Defn) (coords : Coords)
    (h : zone6_blue_count defn coords < 2) :
    zone6 defn coords Modifier.Separated = none := by
  simp only [zone6, distribute_in_ring]
  rw [if_neg (Bool.false_ne_true), if_pos h]

/-- Witness for `c10_zone6_separated_panics`: the empty puzzle, whose cells
have no blue neighbours at all. -/
theorem c10_witness :
    zone6_blue_count [] ⟨0, 0⟩ < 2 ∧ zone6 [] ⟨0, 0⟩ Modifier.Separated = none :=
  ⟨by decide, c10_zone6_separated_panics [] ⟨0, 0⟩ (by decide)⟩

/-- C7: when the Tier-2 (`compound_invariants`) or Tier-3
(`global_invariants`) search runs out of wall-clock budget, the surfaced
`Timeout` error makes the loop body end in the `timeout` result, which
carries no updated progress, constraints or findings, and `solve`'s loop
returns the outcome `Timeout` at once with the history unchanged: no
partial progress from the aborted tier is committed. -/
theorem c7_timeout_aborts_tiers (fuel : ℕ) (env : Env) (defn : Defn)
    (progress : Progress) (cs csN csG : Constraints) (history : List Findings)
    (hnarrow : (cs.reveal (progress.blacks ∪ progress.blues)).narrow
      (progress.blacks ∪ progress.blues) progress = some csN)
    (hgc : csN.gc = some csG)
    (hnp : progress.is_solved = false)
    (hnc : csG.is_solved = false)
    (htriv : csG.trivial_invariants defn = some [])
    (habort :
      (∃ t, csG.compound_invariants fuel env.reset_timer defn = some (Except.error t)) ∨
      (∃ d env2 t, csG.compound_invariants fuel env.reset_timer defn
          = some (Except.ok ([], d, env2)) ∧
        csG.global_invariants env2 defn = some (Except.error t))) :
    solveStep fuel env defn progress cs = some StepRes.timeout ∧
    solveGo defn (fuel + 1) env progress cs history = some Outcome.Timeout := by
  have hstep : solveStep fuel env defn progress cs = some StepRes.timeout := by
    unfold solveStep
    dsimp only
    rw [hnarrow]
    simp only [Option.bind_eq_bind, Option.some_bind]
    rw [hgc]
    simp only [Option.some_bind]
    rw [hnp]
    rw [if_neg Bool.false_ne_true]
    rw [hnc, if_neg Bool.false_ne_true]
    rw [htriv]
    simp only [Option.some_bind]
    rw [if_neg (show ¬(([] : List (Coords × Color)) ≠ []) from fun h => h rfl)]
    rcases habort with ⟨t, hcomp⟩ | ⟨d, env2, t, hcomp, hglob⟩
    · rw [hcomp]
      simp only [Option.some_bind]
    · rw [hcomp]
      simp only [Option.some_bind]
      rw [if_neg (show ¬(([] : List (Coords × Color)) ≠ []) from fun h => h rfl)]
      rw [hglob]
      simp only [Option.some_bind]
  refine ⟨hstep, ?_⟩
  unfold solveGo
  rw [hstep]
  simp only [Option.bind_eq_bind, Option.some_bind]

set_option maxHeartbeats 1600000 in
/-- Witness for `c7_timeout_aborts_tiers`: one visible two-cell constraint,
no trivial invariants, and a clock oracle that is already expired, so the
very first Tier-2 time check surfaces `Timeout`. -/
theorem c7_witness :
    solveStep 1 ⟨fun _ => true, 0⟩ [] ⟨∅, ∅, {⟨1, 0⟩, ⟨2, 0⟩}⟩
      ⟨[], [(⟨0, 0⟩, ⟨{⟨1, 0⟩, ⟨2, 0⟩}, [⟨[({⟨1, 0⟩, ⟨2, 0⟩}, 1)]⟩]⟩)], ∅⟩
      = some StepRes.timeout ∧
    solveGo [] (1 + 1) ⟨fun _ => true, 0⟩ ⟨∅, ∅, {⟨1, 0⟩, ⟨2, 0⟩}⟩
      ⟨[], [(⟨0, 0⟩, ⟨{⟨1, 0⟩, ⟨2, 0⟩}, [⟨[({⟨1, 0⟩, ⟨2, 0⟩}, 1)]⟩]⟩)], ∅⟩ []
      = some Outcome.Timeout := by
  refine c7_timeout_aborts_tiers 1 ⟨fun _ => true, 0⟩ [] ⟨∅, ∅, {⟨1, 0⟩, ⟨2, 0⟩}⟩
    ⟨[], [(⟨0, 0⟩, ⟨{⟨1, 0⟩, ⟨2, 0⟩}, [⟨[({⟨1, 0⟩, ⟨2, 0⟩}, 1)]⟩]⟩)], ∅⟩
    ⟨[], [(⟨0, 0⟩, ⟨{⟨1, 0⟩, ⟨2, 0⟩}, [⟨[({⟨1, 0⟩, ⟨2, 0⟩}, 1)]⟩]⟩)], ∅⟩
    ⟨[], [(⟨0, 0⟩, ⟨{⟨1, 0⟩, ⟨2, 0⟩}, [⟨[({⟨1, 0⟩, ⟨2, 0⟩}, 1)]⟩]⟩)], ∅⟩ []
    (by decide) (by decide) (by decide) (by decide) (by decide)
    (Or.inl ⟨⟨⟩, ?_⟩)
  have h : (Constraints.compound_invariants
      ⟨[], [(⟨0, 0⟩, ⟨{⟨1, 0⟩, ⟨2, 0⟩}, [⟨[({⟨1, 0⟩, ⟨2, 0⟩}, 1)]⟩]⟩)], ∅⟩ 1
      (Env.reset_timer ⟨fun _ => true, 0⟩) []).map
      (fun r => match r with | Except.error _ => true | Except.ok _ => false)
      = some true := by decide
  cases hx : Constraints.compound_invariants
      ⟨[], [(⟨0, 0⟩, ⟨{⟨1, 0⟩, ⟨2, 0⟩}, [⟨[({⟨1, 0⟩, ⟨2, 0⟩}, 1)]⟩]⟩)], ∅⟩ 1
      (Env.reset_timer ⟨fun _ => true, 0⟩) [] with
  | none =>
    rw [hx] at h
    cases h
  | some r =>
    rw [hx] at h
    cases r with
    | error t => rfl
    | ok v =>
      simp at h
